import Mathlib

set_option maxHeartbeats 1000000

/-!
Verification development for the dupfind duplicate-file finder.

The definitions below shallowly embed the TypeScript sources:
* `src/hash.ts` — `hashFile` (streaming SHA-256) and `mapWithConcurrency`
  (a worker pool with a shared claim counter);
* `src/scan.ts` — `walkDirectory` and `collectSizeGroups`;
* `src/report.ts` — `buildDuplicatesReport`.

Asynchronous scheduling of the worker pool is modelled by a small-step
transition relation; filesystem reads (stat, readdir, hashing a path) are
modelled by explicit oracle functions returning `Except`.
-/

namespace Dupfind

/-! ## Worker-pool executor: model of `mapWithConcurrency` (src/hash.ts)

The source keeps a shared `index` claim counter, an `errors` list, a
pre-allocated `results` array of length `items.length` (slots start as
holes), and a `completed` counter, and spawns `limit` copies of `worker()`.
JavaScript runs each synchronous section atomically; suspension happens
only at `await mapper(items[current])`.  A step of the relation below is
one such atomic section of one worker:

* claiming (`const current = index; index += 1; if (current >= length) return`)
  either terminates the worker or moves it to `running current`;
* the awaited mapper call resolving (`results[current] = await mapper(...)`)
  or rejecting (the `catch` block) writes the slot, possibly appends an
  error entry, bumps `completed`, and returns the worker to the top of its
  loop.

The mapper's behaviour is an oracle `outcome : Nat → Except E (Option R)`:
for item `i` it either resolves with `some r`, resolves with the `null`
sentinel (`Except.ok none`), or rejects with an error `e`.
`Array.from ({ length: limit })` clamps a non-positive limit to zero
workers, hence `limit : Int` and `limit.toNat` workers. -/

inductive WStatus where
  | ready : WStatus
  | running (current : Nat) : WStatus
  | done : WStatus
deriving DecidableEq, Repr

def WStatus.isRunning : WStatus → Bool
  | .running _ => true
  | _ => false

/-- One entry of the executor's `errors` array:
`{ index: current, item: items[current], error: err }`. -/
structure ErrEntry (T E : Type) where
  index : Nat
  item : T
  error : E
deriving DecidableEq, Repr

/-- The mutable state of one `mapWithConcurrency` call: the shared claim
counter `idx`, the worker pool, the `results` array (a slot is `none`
while still an uninitialised hole, `some v` once written with `v`, where
`v : Option R` is the mapper's value or `null`), the `errors` list and
the `completed` counter. -/
structure ExecState (T R E : Type) where
  idx : Nat
  workers : List WStatus
  results : List (Option (Option R))
  errors : List (ErrEntry T E)
  completed : Nat
deriving DecidableEq, Repr

/-- The slot value the source stores for a finished item: the mapper's
resolved value (`R | null`), or `null` when the mapper rejected. -/
def slotVal {R E : Type} : Except E (Option R) → Option R
  | .ok v => v
  | .error _ => none

/-- State at the start of `mapWithConcurrency`:
`results = new Array(items.length)` (all holes), `errors = []`,
`index = 0`, `completed = 0`, and `limit.toNat` workers at their loop top. -/
def initState (T R E : Type) (limit : Int) (n : Nat) : ExecState T R E :=
  { idx := 0
    workers := List.replicate limit.toNat .ready
    results := List.replicate n none
    errors := []
    completed := 0 }

/-- Small-step transitions of the worker pool, one per atomic synchronous
section of `worker()` in src/hash.ts.  The scheduler (which worker moves,
and when an in-flight mapper call resolves) is nondeterministic. -/
inductive Step {T R E : Type} (item : Nat → T) (outcome : Nat → Except E (Option R))
    (n : Nat) : ExecState T R E → ExecState T R E → Prop where
  | claimDone (s : ExecState T R E) (w : Nat)
      (hw : s.workers[w]? = some .ready) (hn : n ≤ s.idx) :
      Step item outcome n s
        { s with idx := s.idx + 1, workers := s.workers.set w .done }
  | claimRun (s : ExecState T R E) (w : Nat)
      (hw : s.workers[w]? = some .ready) (hn : s.idx < n) :
      Step item outcome n s
        { s with idx := s.idx + 1, workers := s.workers.set w (.running s.idx) }
  | finishOk (s : ExecState T R E) (w c : Nat) (v : Option R)
      (hw : s.workers[w]? = some (.running c)) (ho : outcome c = .ok v) :
      Step item outcome n s
        { s with workers := s.workers.set w .ready
                 results := s.results.set c (some v)
                 completed := s.completed + 1 }
  | finishErr (s : ExecState T R E) (w c : Nat) (e : E)
      (hw : s.workers[w]? = some (.running c)) (ho : outcome c = .error e) :
      Step item outcome n s
        { s with workers := s.workers.set w .ready
                 results := s.results.set c (some none)
                 errors := s.errors ++ [⟨c, item c, e⟩]
                 completed := s.completed + 1 }

/-- States an execution of `mapWithConcurrency items limit mapper` can be in. -/
def Reachable {T R E : Type} (item : Nat → T) (outcome : Nat → Except E (Option R))
    (limit : Int) (n : Nat) (s : ExecState T R E) : Prop :=
  Relation.ReflTransGen (Step item outcome n) (initState T R E limit n) s

/-- `Promise.all(workers)` has resolved: every worker returned. -/
def allDone {T R E : Type} (s : ExecState T R E) : Bool :=
  s.workers.all (· = .done)

/-- Number of mapper invocations currently in flight. -/
def inFlight {T R E : Type} (s : ExecState T R E) : Nat :=
  (s.workers.filter WStatus.isRunning).length

/-- Inductive invariant of the worker pool. -/
structure ExecInv {T R E : Type} (item : Nat → T) (outcome : Nat → Except E (Option R))
    (limit : Int) (n : Nat) (s : ExecState T R E) : Prop where
  wlen : s.workers.length = limit.toNat
  rlen : s.results.length = n
  running_lt : ∀ (w c : Nat), s.workers[w]? = some (WStatus.running c) → c < n ∧ c < s.idx
  running_hole : ∀ (w c : Nat), s.workers[w]? = some (WStatus.running c) → s.results[c]? = some none
  run_inj : ∀ (w₁ w₂ c : Nat), s.workers[w₁]? = some (WStatus.running c) →
      s.workers[w₂]? = some (WStatus.running c) → w₁ = w₂
  written_lt : ∀ (c : Nat) (x : Option R), s.results[c]? = some (some x) → c < s.idx
  written_val : ∀ (c : Nat) (x : Option R), s.results[c]? = some (some x) → x = slotVal (outcome c)
  cover : ∀ (c : Nat), c < s.idx → c < n →
      (∃ w : Nat, s.workers[w]? = some (WStatus.running c)) ∨ (∃ x : Option R, s.results[c]? = some (some x))
  err_mem : ∀ ent ∈ s.errors, ent.index < n ∧ (∃ x : Option R, s.results[ent.index]? = some (some x)) ∧
      outcome ent.index = Except.error ent.error ∧ ent.item = item ent.index
  err_uniq : ∀ (c : Nat), s.errors.countP (fun ent => ent.index == c) ≤ 1
  err_complete : ∀ (c : Nat) (e : E), s.results[c]? = some (some none) → outcome c = Except.error e →
      1 ≤ s.errors.countP (fun ent => ent.index == c)
  done_idx : ∀ (w : Nat), s.workers[w]? = some WStatus.done → n ≤ s.idx

theorem getElem?_some_lt {α : Type} {l : List α} {i : Nat} {a : α}
    (h : l[i]? = some a) : i < l.length := by
  by_contra hlt
  rw [List.getElem?_eq_none (by omega)] at h
  exact Option.noConfusion h

theorem execInv_init {T R E : Type} (item : Nat → T) (outcome : Nat → Except E (Option R))
    (limit : Int) (n : Nat) : ExecInv item outcome limit n (initState T R E limit n) := by
  refine ⟨?_, ?_, ?_, ?_, ?_, ?_, ?_, ?_, ?_, ?_, ?_, ?_⟩ <;>
    simp only [initState, List.length_replicate]
  · intro w c h
    rw [List.getElem?_replicate] at h
    split at h <;> simp_all
  · intro w c h
    rw [List.getElem?_replicate] at h
    split at h <;> simp_all
  · intro w₁ w₂ c h₁ h₂
    rw [List.getElem?_replicate] at h₁
    split at h₁ <;> simp_all
  · intro c x h
    rw [List.getElem?_replicate] at h
    split at h <;> simp_all
  · intro c x h
    rw [List.getElem?_replicate] at h
    split at h <;> simp_all
  · intro c hc
    omega
  · intro ent h
    exact absurd h (List.not_mem_nil ent)
  · intro c
    simp [List.countP_nil]
  · intro c e h
    rw [List.getElem?_replicate] at h
    split at h <;> simp_all
  · intro w h
    rw [List.getElem?_replicate] at h
    split at h <;> simp_all

theorem getElem?_set_inv {α : Type} {l : List α} {i j : Nat} {a b : α}
    (h : (l.set i a)[j]? = some b) :
    (i = j ∧ a = b ∧ i < l.length) ∨ (i ≠ j ∧ l[j]? = some b) := by
  rw [List.getElem?_set] at h
  by_cases hij : i = j
  · rw [if_pos hij] at h
    split at h
    · injection h with h
      exact Or.inl ⟨hij, h, by assumption⟩
    · exact Option.noConfusion h
  · exact Or.inr ⟨hij, by rwa [if_neg hij] at h⟩

theorem execInv_step {T R E : Type} {item : Nat → T} {outcome : Nat → Except E (Option R)}
    {limit : Int} {n : Nat} {s s' : ExecState T R E}
    (hinv : ExecInv item outcome limit n s) (hstep : Step item outcome n s s') :
    ExecInv item outcome limit n s' := by
  obtain ⟨wlen, rlen, running_lt, running_hole, run_inj, written_lt, written_val,
    cover, err_mem, err_uniq, err_complete, done_idx⟩ := hinv
  cases hstep with
  | claimDone w hw hn =>
    refine ⟨?_, ?_, ?_, ?_, ?_, ?_, ?_, ?_, ?_, ?_, ?_, ?_⟩ <;> dsimp only
    · rw [List.length_set]; exact wlen
    · exact rlen
    · intro w' c h
      rcases getElem?_set_inv h with ⟨_, hval, _⟩ | ⟨_, h'⟩
      · exact absurd hval (by simp)
      · have := running_lt w' c h'
        omega
    · intro w' c h
      rcases getElem?_set_inv h with ⟨_, hval, _⟩ | ⟨_, h'⟩
      · exact absurd hval (by simp)
      · exact running_hole w' c h'
    · intro w₁ w₂ c h₁ h₂
      rcases getElem?_set_inv h₁ with ⟨_, hval, _⟩ | ⟨_, h₁'⟩
      · exact absurd hval (by simp)
      rcases getElem?_set_inv h₂ with ⟨_, hval, _⟩ | ⟨_, h₂'⟩
      · exact absurd hval (by simp)
      exact run_inj w₁ w₂ c h₁' h₂'
    · intro c x h
      have := written_lt c x h
      omega
    · exact written_val
    · intro c hc hcn
      have hc' : c < s.idx := by omega
      rcases cover c hc' hcn with ⟨w', hw'⟩ | hx
      · left
        refine ⟨w', ?_⟩
        have hne : w ≠ w' := by
          rintro rfl
          rw [hw] at hw'
          simp at hw'
        rwa [List.getElem?_set_ne hne]
      · exact Or.inr hx
    · exact err_mem
    · exact err_uniq
    · exact err_complete
    · intro w' _
      omega
  | claimRun w hw hn =>
    have hwlt : w < s.workers.length := getElem?_some_lt hw
    refine ⟨?_, ?_, ?_, ?_, ?_, ?_, ?_, ?_, ?_, ?_, ?_, ?_⟩ <;> dsimp only
    · rw [List.length_set]; exact wlen
    · exact rlen
    · intro w' c h
      rcases getElem?_set_inv h with ⟨_, hval, _⟩ | ⟨_, h'⟩
      · injection hval with hval
        omega
      · have := running_lt w' c h'
        omega
    · intro w' c h
      rcases getElem?_set_inv h with ⟨_, hval, _⟩ | ⟨_, h'⟩
      · injection hval with hval
        have hlt : c < s.results.length := by omega
        have hget := List.getElem?_eq_getElem hlt
        cases hres : s.results[c] with
        | none => rw [hget, hres]
        | some y =>
          have := written_lt c y (by rw [hget, hres])
          omega
      · exact running_hole w' c h'
    · intro w₁ w₂ c h₁ h₂
      rcases getElem?_set_inv h₁ with ⟨hw₁, hval₁, _⟩ | ⟨_, h₁'⟩ <;>
        rcases getElem?_set_inv h₂ with ⟨hw₂, hval₂, _⟩ | ⟨_, h₂'⟩
      · omega
      · have : c = s.idx := by injection hval₁.symm
        have := running_lt w₂ c h₂'
        omega
      · have : c = s.idx := by injection hval₂.symm
        have := running_lt w₁ c h₁'
        omega
      · exact run_inj w₁ w₂ c h₁' h₂'
    · intro c x h
      have := written_lt c x h
      omega
    · exact written_val
    · intro c hc hcn
      by_cases hceq : c = s.idx
      · subst hceq
        left
        exact ⟨w, by rw [List.getElem?_set_self hwlt]⟩
      · have hc' : c < s.idx := by omega
        rcases cover c hc' hcn with ⟨w', hw'⟩ | hx
        · left
          refine ⟨w', ?_⟩
          have hne : w ≠ w' := by
            rintro rfl
            rw [hw] at hw'
            simp at hw'
          rwa [List.getElem?_set_ne hne]
        · exact Or.inr hx
    · exact err_mem
    · exact err_uniq
    · exact err_complete
    · intro w' h
      rcases getElem?_set_inv h with ⟨_, hval, _⟩ | ⟨_, h'⟩
      · exact absurd hval (by simp)
      · have := done_idx w' h'
        omega
  | finishOk w c v hw ho =>
    have hcn := running_lt w c hw
    have hole := running_hole w c hw
    have hclen : c < s.results.length := getElem?_some_lt hole
    refine ⟨?_, ?_, ?_, ?_, ?_, ?_, ?_, ?_, ?_, ?_, ?_, ?_⟩ <;> dsimp only
    · rw [List.length_set]; exact wlen
    · rw [List.length_set]; exact rlen
    · intro w' c' h
      rcases getElem?_set_inv h with ⟨_, hval, _⟩ | ⟨_, h'⟩
      · exact absurd hval (by simp)
      · exact running_lt w' c' h'
    · intro w' c' h
      rcases getElem?_set_inv h with ⟨_, hval, _⟩ | ⟨hne, h'⟩
      · exact absurd hval (by simp)
      · have hcc : c' ≠ c := by
          rintro rfl
          exact hne (run_inj w w' c' hw h')
        rw [List.getElem?_set_ne (Ne.symm hcc)]
        exact running_hole w' c' h'
    · intro w₁ w₂ c' h₁ h₂
      rcases getElem?_set_inv h₁ with ⟨_, hval, _⟩ | ⟨_, h₁'⟩
      · exact absurd hval (by simp)
      rcases getElem?_set_inv h₂ with ⟨_, hval, _⟩ | ⟨_, h₂'⟩
      · exact absurd hval (by simp)
      exact run_inj w₁ w₂ c' h₁' h₂'
    · intro c' x h
      rcases getElem?_set_inv h with ⟨rfl, _, _⟩ | ⟨_, h'⟩
      · exact hcn.2
      · exact written_lt c' x h'
    · intro c' x h
      rcases getElem?_set_inv h with ⟨rfl, hval, _⟩ | ⟨_, h'⟩
      · injection hval with hval
        rw [← hval, ho]
        rfl
      · exact written_val c' x h'
    · intro c' hc' hcn'
      rcases cover c' hc' hcn' with ⟨w', hw'⟩ | ⟨x, hx⟩
      · by_cases hww : w' = w
        · subst hww
          rw [hw] at hw'
          injection hw' with hw'
          injection hw' with hw'
          subst hw'
          right
          exact ⟨v, by rw [List.getElem?_set_self hclen]⟩
        · left
          refine ⟨w', ?_⟩
          rwa [List.getElem?_set_ne (fun h => hww h.symm)]
      · have hcc : c' ≠ c := by
          rintro rfl
          rw [hole] at hx
          injection hx with hx
          exact Option.noConfusion hx
        right
        refine ⟨x, ?_⟩
        rwa [List.getElem?_set_ne (Ne.symm hcc)]
    · intro ent hent
      obtain ⟨hin, ⟨x, hxw⟩, ho', hitem⟩ := err_mem ent hent
      have hcc : ent.index ≠ c := by
        intro hic
        rw [hic, hole] at hxw
        injection hxw with hxw
        exact Option.noConfusion hxw
      refine ⟨hin, ⟨x, ?_⟩, ho', hitem⟩
      rwa [List.getElem?_set_ne (Ne.symm hcc)]
    · exact err_uniq
    · intro c' e h ho'
      rcases getElem?_set_inv h with ⟨rfl, hval, _⟩ | ⟨_, h'⟩
      · rw [ho] at ho'
        exact Except.noConfusion ho'
      · exact err_complete c' e h' ho'
    · intro w' h
      rcases getElem?_set_inv h with ⟨_, hval, _⟩ | ⟨_, h'⟩
      · exact absurd hval (by simp)
      · exact done_idx w' h'
  | finishErr w c e hw ho =>
    have hcn := running_lt w c hw
    have hole := running_hole w c hw
    have hclen : c < s.results.length := getElem?_some_lt hole
    have hcnt0 : s.errors.countP (fun ent => ent.index == c) = 0 := by
      rw [List.countP_eq_zero]
      intro ent hent
      obtain ⟨_, ⟨x, hxw⟩, _, _⟩ := err_mem ent hent
      simp only [beq_iff_eq]
      rintro rfl
      rw [hole] at hxw
      injection hxw with hxw
      exact Option.noConfusion hxw
    refine ⟨?_, ?_, ?_, ?_, ?_, ?_, ?_, ?_, ?_, ?_, ?_, ?_⟩ <;> dsimp only
    · rw [List.length_set]; exact wlen
    · rw [List.length_set]; exact rlen
    · intro w' c' h
      rcases getElem?_set_inv h with ⟨_, hval, _⟩ | ⟨_, h'⟩
      · exact absurd hval (by simp)
      · exact running_lt w' c' h'
    · intro w' c' h
      rcases getElem?_set_inv h with ⟨_, hval, _⟩ | ⟨hne, h'⟩
      · exact absurd hval (by simp)
      · have hcc : c' ≠ c := by
          rintro rfl
          exact hne (run_inj w w' c' hw h')
        rw [List.getElem?_set_ne (Ne.symm hcc)]
        exact running_hole w' c' h'
    · intro w₁ w₂ c' h₁ h₂
      rcases getElem?_set_inv h₁ with ⟨_, hval, _⟩ | ⟨_, h₁'⟩
      · exact absurd hval (by simp)
      rcases getElem?_set_inv h₂ with ⟨_, hval, _⟩ | ⟨_, h₂'⟩
      · exact absurd hval (by simp)
      exact run_inj w₁ w₂ c' h₁' h₂'
    · intro c' x h
      rcases getElem?_set_inv h with ⟨rfl, _, _⟩ | ⟨_, h'⟩
      · exact hcn.2
      · exact written_lt c' x h'
    · intro c' x h
      rcases getElem?_set_inv h with ⟨rfl, hval, _⟩ | ⟨_, h'⟩
      · injection hval with hval
        rw [← hval, ho]
        rfl
      · exact written_val c' x h'
    · intro c' hc' hcn'
      rcases cover c' hc' hcn' with ⟨w', hw'⟩ | ⟨x, hx⟩
      · by_cases hww : w' = w
        · subst hww
          rw [hw] at hw'
          injection hw' with hw'
          injection hw' with hw'
          subst hw'
          right
          exact ⟨none, by rw [List.getElem?_set_self hclen]⟩
        · left
          refine ⟨w', ?_⟩
          rwa [List.getElem?_set_ne (fun h => hww h.symm)]
      · have hcc : c' ≠ c := by
          rintro rfl
          rw [hole] at hx
          injection hx with hx
          exact Option.noConfusion hx
        right
        refine ⟨x, ?_⟩
        rwa [List.getElem?_set_ne (Ne.symm hcc)]
    · intro ent hent
      rcases List.mem_append.mp hent with hold | hnew
      · obtain ⟨hin, ⟨x, hxw⟩, ho', hitem⟩ := err_mem ent hold
        have hcc : ent.index ≠ c := by
          intro hic
          rw [hic, hole] at hxw
          injection hxw with hxw
          exact Option.noConfusion hxw
        refine ⟨hin, ⟨x, ?_⟩, ho', hitem⟩
        rwa [List.getElem?_set_ne (Ne.symm hcc)]
      · have hent' : ent = ⟨c, item c, e⟩ := by
          simpa using hnew
        subst hent'
        exact ⟨hcn.1, ⟨none, by rw [List.getElem?_set_self hclen]⟩, ho, rfl⟩
    · intro c'
      rw [List.countP_append]
      by_cases hcc : c' = c
      · have h1 : List.countP (fun ent => ent.index == c')
            [(⟨c, item c, e⟩ : ErrEntry T E)] = 1 := by
          simp [hcc]
        have h2 : List.countP (fun ent => ent.index == c') s.errors = 0 := by
          rw [hcc]
          exact hcnt0
        omega
      · have h1 : List.countP (fun ent => ent.index == c')
            [(⟨c, item c, e⟩ : ErrEntry T E)] = 0 := by
          simp [Ne.symm hcc]
        have h2 := err_uniq c'
        omega
    · intro c' e' h ho'
      rw [List.countP_append]
      rcases getElem?_set_inv h with ⟨rfl, _, _⟩ | ⟨hne, h'⟩
      · have h1 : List.countP (fun ent => ent.index == c)
            [(⟨c, item c, e⟩ : ErrEntry T E)] = 1 := by
          simp
        omega
      · have h2 := err_complete c' e' h' ho'
        omega
    · intro w' h
      rcases getElem?_set_inv h with ⟨_, hval, _⟩ | ⟨_, h'⟩
      · exact absurd hval (by simp)
      · exact done_idx w' h'

/-- Every reachable state of the worker pool satisfies the invariant. -/
theorem execInv_reachable {T R E : Type} {item : Nat → T}
    {outcome : Nat → Except E (Option R)} {limit : Int} {n : Nat} {s : ExecState T R E}
    (hr : Reachable item outcome limit n s) : ExecInv item outcome limit n s := by
  induction hr with
  | refl => exact execInv_init item outcome limit n
  | tail _ hstep ih => exact execInv_step ih hstep

theorem allDone_no_running {T R E : Type} {s : ExecState T R E} (hd : allDone s = true) :
    ∀ (w c : Nat), s.workers[w]? ≠ some (WStatus.running c) := by
  simp only [allDone, List.all_eq_true, decide_eq_true_eq] at hd
  intro w c h
  have := hd _ (List.getElem?_mem h)
  exact WStatus.noConfusion this

/-- C2 (shared core): in any terminal state of `mapWithConcurrency` reached
with at least one worker, the results array has one slot per input index
holding the mapper's outcome for that index, and the error list has exactly
one entry (with the original item and the failure detail) for each rejected
index and none for any resolved index — for every schedule. -/
theorem mapWithConcurrency_terminal {T R E : Type} (item : Nat → T)
    (outcome : Nat → Except E (Option R)) (limit : Int) (n : Nat)
    (s : ExecState T R E) (hl : 1 ≤ limit) (hr : Reachable item outcome limit n s)
    (hd : allDone s = true) :
    s.results.length = n ∧
    (∀ i : Nat, i < n → s.results[i]? = some (some (slotVal (outcome i)))) ∧
    (∀ (i : Nat) (v : Option R), i < n → outcome i = Except.ok v →
      s.results[i]? = some (some v) ∧
      s.errors.countP (fun ent => ent.index == i) = 0) ∧
    (∀ (i : Nat) (e : E), i < n → outcome i = Except.error e →
      s.results[i]? = some (some none) ∧
      s.errors.countP (fun ent => ent.index == i) = 1 ∧
      ∀ ent ∈ s.errors, ent.index = i → ent.item = item i ∧ ent.error = e) := by
  have inv := execInv_reachable hr
  have hnr := allDone_no_running hd
  have hidx : n ≤ s.idx := by
    have hlen : 0 < s.workers.length := by
      rw [inv.wlen]
      omega
    have h0 : s.workers[0]? = some s.workers[0] := List.getElem?_eq_getElem hlen
    simp only [allDone, List.all_eq_true, decide_eq_true_eq] at hd
    have hdone : s.workers[0] = WStatus.done := hd _ (List.getElem?_mem h0)
    exact inv.done_idx 0 (by rw [h0, hdone])
  have hwrit : ∀ i : Nat, i < n → s.results[i]? = some (some (slotVal (outcome i))) := by
    intro i hi
    rcases inv.cover i (by omega) hi with ⟨w, hw⟩ | ⟨x, hx⟩
    · exact absurd hw (hnr w i)
    · rw [hx, inv.written_val i x hx]
  refine ⟨inv.rlen, hwrit, ?_, ?_⟩
  · intro i v hi ho
    have hslot := hwrit i hi
    rw [ho] at hslot
    refine ⟨hslot, ?_⟩
    rw [List.countP_eq_zero]
    intro ent hent
    simp only [beq_iff_eq]
    intro hie
    obtain ⟨_, _, ho', _⟩ := inv.err_mem ent hent
    rw [hie, ho] at ho'
    exact Except.noConfusion ho'
  · intro i e hi ho
    have hslot := hwrit i hi
    rw [ho] at hslot
    have hge := inv.err_complete i e hslot ho
    have hle := inv.err_uniq i
    refine ⟨hslot, by omega, ?_⟩
    intro ent hent hie
    obtain ⟨_, _, ho', hitem⟩ := inv.err_mem ent hent
    rw [hie, ho] at ho'
    injection ho' with ho'
    exact ⟨hie ▸ hitem, ho'.symm⟩

/-- C3: the number of simultaneously in-flight mapper invocations never
exceeds the concurrency limit, in any reachable state of any schedule. -/
theorem mapWithConcurrency_bound {T R E : Type} (item : Nat → T)
    (outcome : Nat → Except E (Option R)) (limit : Int) (n : Nat)
    (s : ExecState T R E) (hl : 1 ≤ limit) (hr : Reachable item outcome limit n s) :
    (inFlight s : Int) ≤ limit := by
  have inv := execInv_reachable hr
  have h1 : inFlight s ≤ s.workers.length := List.length_filter_le _ _
  rw [inv.wlen] at h1
  have h2 : (limit.toNat : Int) = limit := Int.toNat_of_nonneg (by omega)
  omega

/-- C10: with a non-positive concurrency limit, `Array.from ({ length: limit })`
produces no workers at all, so the execution can never leave its initial
state: `Promise.all([])` resolves at once and `mapWithConcurrency` returns
normally with `items.length` unwritten result slots and no errors, without
ever invoking the transform. -/
theorem mapWithConcurrency_nonpositive_limit {T R E : Type} (item : Nat → T)
    (outcome : Nat → Except E (Option R)) (limit : Int) (n : Nat)
    (s : ExecState T R E) (hl : limit ≤ 0) (hr : Reachable item outcome limit n s) :
    s = initState T R E limit n ∧ allDone s = true ∧
    s.results = List.replicate n none ∧ s.errors = [] ∧ inFlight s = 0 := by
  have hs : s = initState T R E limit n := by
    have hw0 : (initState T R E limit n).workers = [] := by
      simp only [initState]
      have : limit.toNat = 0 := by omega
      rw [this]
      rfl
    clear hl
    induction hr with
    | refl => rfl
    | tail hr' hstep ih =>
      subst ih
      cases hstep with
      | claimDone w hw hn => rw [hw0] at hw; exact Option.noConfusion hw
      | claimRun w hw hn => rw [hw0] at hw; exact Option.noConfusion hw
      | finishOk w c v hw ho => rw [hw0] at hw; exact Option.noConfusion hw
      | finishErr w c e hw ho => rw [hw0] at hw; exact Option.noConfusion hw
  subst hs
  refine ⟨rfl, ?_, rfl, rfl, ?_⟩
  · simp only [allDone, initState]
    have : limit.toNat = 0 := by omega
    rw [this]
    rfl
  · simp only [inFlight, initState]
    have : limit.toNat = 0 := by omega
    rw [this]
    rfl

/-- C2: for every items array, every concurrency limit `L ≥ 1`, every
transform and every schedule, `mapWithConcurrency` returns a results array
of length `items.length` whose slot `i` holds the transform's output for
`items[i]` (the resolved value, or the empty slot `null` when the transform
raised), and the error list has exactly one entry with index `i` — carrying
the original item and the failure detail — when the transform for `items[i]`
raised, and none otherwise; slots correspond to input indices regardless of
completion order. -/
theorem mapWithConcurrency_results_and_errors {T R E : Type} (item : Nat → T)
    (outcome : Nat → Except E (Option R)) (limit : Int) (n : Nat)
    (s : ExecState T R E) (hl : 1 ≤ limit) (hr : Reachable item outcome limit n s)
    (hd : allDone s = true) :
    s.results.length = n ∧
    (∀ i : Nat, i < n → s.results[i]? = some (some (slotVal (outcome i)))) ∧
    (∀ (i : Nat) (v : Option R), i < n → outcome i = Except.ok v →
      s.results[i]? = some (some v) ∧
      s.errors.countP (fun ent => ent.index == i) = 0) ∧
    (∀ (i : Nat) (e : E), i < n → outcome i = Except.error e →
      s.results[i]? = some (some none) ∧
      s.errors.countP (fun ent => ent.index == i) = 1 ∧
      ∀ ent ∈ s.errors, ent.index = i → ent.item = item i ∧ ent.error = e) :=
  mapWithConcurrency_terminal item outcome limit n s hl hr hd

/-- Concrete two-item run used by the executor witnesses: item 0 resolves,
item 1 rejects. -/
def itemW : Nat → Nat := fun i => i + 10

def outcomeW : Nat → Except String (Option Nat) :=
  fun i => if i = 1 then Except.error "boom" else Except.ok (some (2 * i))

/-- The mid-run state of the witness schedule, with one mapper call in flight. -/
def execWitnessMid : ExecState Nat Nat String :=
  { idx := 1, workers := [WStatus.running 0],
    results := [none, none], errors := [], completed := 0 }

/-- The terminal state of the witness schedule. -/
def execWitnessFinal : ExecState Nat Nat String :=
  { idx := 3, workers := [WStatus.done],
    results := [some (some 0), some none],
    errors := [⟨1, 11, "boom"⟩], completed := 2 }

theorem execWitnessMid_reachable : Reachable itemW outcomeW 1 2 execWitnessMid := by
  refine Relation.ReflTransGen.head (Step.claimRun _ 0 rfl (by decide)) ?_
  exact Relation.ReflTransGen.refl

theorem execWitnessFinal_reachable : Reachable itemW outcomeW 1 2 execWitnessFinal := by
  refine Relation.ReflTransGen.head (Step.claimRun _ 0 rfl (by decide)) ?_
  refine Relation.ReflTransGen.head (Step.finishOk _ 0 0 (some 0) rfl rfl) ?_
  refine Relation.ReflTransGen.head (Step.claimRun _ 0 rfl (by decide)) ?_
  refine Relation.ReflTransGen.head (Step.finishErr _ 0 1 "boom" rfl rfl) ?_
  refine Relation.ReflTransGen.head (Step.claimDone _ 0 rfl (by decide)) ?_
  exact Relation.ReflTransGen.refl

/-- Witness for C2 at a concrete run. -/
theorem mapWithConcurrency_results_and_errors_witness :
    execWitnessFinal.results.length = 2 ∧
    execWitnessFinal.errors.countP (fun ent => ent.index == 1) = 1 :=
  ⟨(mapWithConcurrency_results_and_errors itemW outcomeW 1 2 execWitnessFinal (by decide)
      execWitnessFinal_reachable (by decide)).1,
   ((mapWithConcurrency_results_and_errors itemW outcomeW 1 2 execWitnessFinal (by decide)
      execWitnessFinal_reachable (by decide)).2.2.2 1 "boom" (by decide) rfl).2.1⟩

/-- C3: at no point during an execution of `mapWithConcurrency` — whatever
the items, the transform, the limit `L ≥ 1` and the schedule — are more than
`L` transform invocations simultaneously in flight. -/
theorem mapWithConcurrency_concurrency_bound {T R E : Type} (item : Nat → T)
    (outcome : Nat → Except E (Option R)) (limit : Int) (n : Nat)
    (s : ExecState T R E) (hl : 1 ≤ limit) (hr : Reachable item outcome limit n s) :
    (inFlight s : Int) ≤ limit :=
  mapWithConcurrency_bound item outcome limit n s hl hr

/-- Witness for C3 at a concrete mid-run state with a call in flight. -/
theorem mapWithConcurrency_concurrency_bound_witness :
    (inFlight execWitnessMid : Int) ≤ 1 :=
  mapWithConcurrency_concurrency_bound itemW outcomeW 1 2 execWitnessMid (by decide)
    execWitnessMid_reachable

/-- C10: called with a non-positive limit and any items array,
`mapWithConcurrency` still returns normally — the execution never leaves its
initial state, so the returned results array has length `items.length` with
every slot still an unwritten hole, the error list is empty, and the
transform is never invoked; no error is raised for the out-of-range limit. -/
theorem mapWithConcurrency_limit_nonpositive {T R E : Type} (item : Nat → T)
    (outcome : Nat → Except E (Option R)) (limit : Int) (n : Nat)
    (s : ExecState T R E) (hl : limit ≤ 0) (hr : Reachable item outcome limit n s) :
    s = initState T R E limit n ∧ allDone s = true ∧
    s.results = List.replicate n none ∧ s.errors = [] ∧ inFlight s = 0 :=
  mapWithConcurrency_nonpositive_limit item outcome limit n s hl hr

/-- Witness for C10: limit 0 with three items. -/
theorem mapWithConcurrency_limit_nonpositive_witness :
    (initState Nat Nat String 0 3).results = List.replicate 3 none ∧
    (initState Nat Nat String 0 3).errors = [] :=
  ⟨(mapWithConcurrency_limit_nonpositive itemW outcomeW 0 3 _ (by decide)
      Relation.ReflTransGen.refl).2.2.1,
   (mapWithConcurrency_limit_nonpositive itemW outcomeW 0 3 _ (by decide)
      Relation.ReflTransGen.refl).2.2.2.1⟩

/-! ## Hasher: model of `hashFile` (src/hash.ts)

`hashFile` streams a file's bytes through `crypto.createHash("sha256")` and
resolves with `hash.digest("hex")` — the lower-case hexadecimal SHA-256
digest of the file's full byte content (chunked updates fold to hashing the
concatenation of the chunks).  Node's `crypto` implements FIPS 180-4
SHA-256; the functions below embed that algorithm over byte lists, with
32-bit words as `Nat` reduced modulo `2 ^ 32`. -/

def add32 (a b : Nat) : Nat := (a + b) % 4294967296

def xor32 (a b : Nat) : Nat := Nat.xor a b

def and32 (a b : Nat) : Nat := Nat.land a b

def not32 (a : Nat) : Nat := 4294967295 - a

def rotr32 (x k : Nat) : Nat := x / 2 ^ k + x % 2 ^ k * 2 ^ (32 - k)

def shr32 (x k : Nat) : Nat := x / 2 ^ k

def bigSigma0 (x : Nat) : Nat := xor32 (xor32 (rotr32 x 2) (rotr32 x 13)) (rotr32 x 22)

def bigSigma1 (x : Nat) : Nat := xor32 (xor32 (rotr32 x 6) (rotr32 x 11)) (rotr32 x 25)

def smallSigma0 (x : Nat) : Nat := xor32 (xor32 (rotr32 x 7) (rotr32 x 18)) (shr32 x 3)

def smallSigma1 (x : Nat) : Nat := xor32 (xor32 (rotr32 x 17) (rotr32 x 19)) (shr32 x 10)

def chF (x y z : Nat) : Nat := xor32 (and32 x y) (and32 (not32 x) z)

def majF (x y z : Nat) : Nat := xor32 (xor32 (and32 x y) (and32 x z)) (and32 y z)

def K256 : List Nat :=
  [1116352408, 1899447441, 3049323471, 3921009573, 961987163, 1508970993,
   2453635748, 2870763221, 3624381080, 310598401, 607225278, 1426881987,
   1925078388, 2162078206, 2614888103, 3248222580, 3835390401, 4022224774,
   264347078, 604807628, 770255983, 1249150122, 1555081692, 1996064986,
   2554220882, 2821834349, 2952996808, 3210313671, 3336571891, 3584528711,
   113926993, 338241895, 666307205, 773529912, 1294757372, 1396182291,
   1695183700, 1986661051, 2177026350, 2456956037, 2730485921, 2820302411,
   3259730800, 3345764771, 3516065817, 3600352804, 4094571909, 275423344,
   430227734, 506948616, 659060556, 883997877, 958139571, 1322822218,
   1537002063, 1747873779, 1955562222, 2024104815, 2227730452, 2361852424,
   2428436474, 2756734187, 3204031479, 3329325298]

def sha256InitH : List Nat :=
  [1779033703, 3144134277, 1013904242, 2773480762,
   1359893119, 2600822924, 528734635, 1541459225]

/-- Big-endian byte expansion of a value into `k` bytes. -/
def beBytes : Nat → Nat → List Nat
  | 0, _ => []
  | k + 1, v => beBytes k (v / 256) ++ [v % 256]

/-- FIPS 180-4 padding: append `0x80`, zero bytes to 56 mod 64, then the
bit length as a 64-bit big-endian integer. -/
def padMsg (msg : List Nat) : List Nat :=
  msg ++ [128] ++ List.replicate ((64 - (msg.length + 9) % 64) % 64) 0 ++
    beBytes 8 (msg.length * 8)

/-- Pack bytes into big-endian 32-bit words. -/
def toWords : List Nat → List Nat
  | b0 :: b1 :: b2 :: b3 :: rest => (((b0 * 256 + b1) * 256 + b2) * 256 + b3) :: toWords rest
  | _ => []

/-- Split into 64-byte blocks (fuelled structural recursion so the kernel
can evaluate it; the fuel `l.length` always suffices). -/
def chunksGo : Nat → List Nat → List (List Nat)
  | 0, _ => []
  | _ + 1, [] => []
  | fuel + 1, b :: bs => ((b :: bs).take 64) :: chunksGo fuel ((b :: bs).drop 64)

def chunks64 (l : List Nat) : List (List Nat) := chunksGo l.length l

/-- Message-schedule expansion: 16 block words extended to 64. -/
def msgSchedule (block : List Nat) : List Nat :=
  (List.range 48).foldl
    (fun w _ =>
      w ++ [add32 (add32 (smallSigma1 (w.getD (w.length - 2) 0)) (w.getD (w.length - 7) 0))
              (add32 (smallSigma0 (w.getD (w.length - 15) 0)) (w.getD (w.length - 16) 0))])
    block

/-- The eight working variables of the compression loop. -/
structure Hash8 where
  a : Nat
  b : Nat
  c : Nat
  d : Nat
  e : Nat
  f : Nat
  g : Nat
  hh : Nat
deriving Repr

/-- One 64-round block compression plus the final feed-forward addition. -/
def compress (H : List Nat) (block : List Nat) : List Nat :=
  let kws := (List.zip K256 (msgSchedule block)).map (fun p => add32 p.1 p.2)
  let st0 : Hash8 :=
    ⟨H.getD 0 0, H.getD 1 0, H.getD 2 0, H.getD 3 0, H.getD 4 0, H.getD 5 0, H.getD 6 0,
     H.getD 7 0⟩
  let st := kws.foldl
    (fun st kw =>
      let t1 := add32 (add32 st.hh (bigSigma1 st.e)) (add32 (chF st.e st.f st.g) kw)
      let t2 := add32 (bigSigma0 st.a) (majF st.a st.b st.c)
      ⟨add32 t1 t2, st.a, st.b, st.c, add32 st.d t1, st.e, st.f, st.g⟩)
    st0
  [add32 (H.getD 0 0) st.a, add32 (H.getD 1 0) st.b, add32 (H.getD 2 0) st.c,
   add32 (H.getD 3 0) st.d, add32 (H.getD 4 0) st.e, add32 (H.getD 5 0) st.f,
   add32 (H.getD 6 0) st.g, add32 (H.getD 7 0) st.hh]

/-- SHA-256 of a byte list: the 32 digest bytes. -/
def sha256 (msg : List Nat) : List Nat :=
  (((chunks64 (padMsg msg)).map toWords).foldl compress sha256InitH).flatMap (beBytes 4)

def hexChars : List Char := "0123456789abcdef".data

def hexDigit (n : Nat) : Char := hexChars.getD (n % 16) '0'

def byteToHex (b : Nat) : List Char := [hexDigit (b / 16), hexDigit (b % 16)]

/-- Model of `hashFile` (src/hash.ts): the promise's resolved value for a
readable file, as a function of the file's full byte content — the
lower-case hexadecimal SHA-256 digest produced by `hash.digest("hex")`. -/
def hashFile (content : List Nat) : String := ⟨(sha256 content).flatMap byteToHex⟩

/-- UTF-8 bytes of the fixed test input `"test"`. -/
def testBytes : List Nat := [116, 101, 115, 116]

theorem beBytes_length : ∀ (k v : Nat), (beBytes k v).length = k := by
  intro k
  induction k with
  | zero => intro v; rfl
  | succ k ih =>
    intro v
    simp only [beBytes, List.length_append, ih, List.length_cons, List.length_nil]

theorem flatMap_beBytes4_length (l : List Nat) :
    (l.flatMap (beBytes 4)).length = 4 * l.length := by
  induction l with
  | nil => rfl
  | cons x xs ih =>
    simp only [List.flatMap_cons, List.length_append, ih, beBytes_length, List.length_cons]
    omega

theorem flatMap_byteToHex_length (l : List Nat) :
    (l.flatMap byteToHex).length = 2 * l.length := by
  induction l with
  | nil => rfl
  | cons x xs ih =>
    simp only [List.flatMap_cons, List.length_append, ih, byteToHex, List.length_cons,
      List.length_nil]
    omega

theorem foldl_compress_length :
    ∀ (blocks : List (List Nat)) (H : List Nat), (blocks.foldl compress H).length = 8 ∨
      (blocks = [] ∧ blocks.foldl compress H = H) := by
  intro blocks
  induction blocks with
  | nil => intro H; exact Or.inr ⟨rfl, rfl⟩
  | cons b bs ih =>
    intro H
    left
    rcases ih (compress H b) with h | ⟨_, h⟩
    · exact h
    · rw [List.foldl_cons, h]
      rfl

theorem sha256_length (msg : List Nat) : (sha256 msg).length = 32 := by
  unfold sha256
  rw [flatMap_beBytes4_length]
  rcases foldl_compress_length ((chunks64 (padMsg msg)).map toWords) sha256InitH with h | ⟨_, h⟩
  · omega
  · rw [h]
    rfl

theorem hexDigit_mem (n : Nat) : hexDigit n ∈ hexChars := by
  have h : n % 16 < 16 := Nat.mod_lt _ (by decide)
  have hall : ∀ m : Nat, m < 16 → hexChars.getD m '0' ∈ hexChars := by decide
  exact hall _ h

/-- C7: for every readable file, `hashFile` resolves with the lower-case
hexadecimal SHA-256 digest of the file's full byte content: it is 64
characters long, drawn from `0-9a-f`; identical byte content yields an
identical digest; and on the fixed input `"test"` the digest is
deterministic and equals the published SHA-256 test vector. -/
theorem hashFile_sha256_digest :
    (∀ content : List Nat, (hashFile content).length = 64) ∧
    (∀ content : List Nat, ∀ c ∈ (hashFile content).data, c ∈ hexChars) ∧
    (∀ c₁ c₂ : List Nat, c₁ = c₂ → hashFile c₁ = hashFile c₂) ∧
    hashFile testBytes = "9f86d081884c7d659a2feaa0c55ad015a3bf4f1b2b0b822cd15d6c15b0f00a08" := by
  refine ⟨?_, ?_, ?_, by decide⟩
  · intro content
    show ((sha256 content).flatMap byteToHex).length = 64
    rw [flatMap_byteToHex_length, sha256_length]
  · intro content c hc
    rcases List.mem_flatMap.mp hc with ⟨b, _, hcb⟩
    simp only [byteToHex, List.mem_cons, List.not_mem_nil, or_false] at hcb
    rcases hcb with h | h
    · exact h ▸ hexDigit_mem _
    · exact h ▸ hexDigit_mem _
  · intro c₁ c₂ h
    exact congrArg hashFile h

/-- Witness for C7: the theorem applied at the fixed `"test"` input. -/
theorem hashFile_sha256_digest_witness :
    hashFile testBytes = hashFile [116, 101, 115, 116] ∧ (hashFile testBytes).length = 64 :=
  ⟨hashFile_sha256_digest.2.2.1 testBytes [116, 101, 115, 116] rfl,
   hashFile_sha256_digest.1 testBytes⟩

/-! ## Insertion-ordered multimaps

Both `collectSizeGroups` (src/scan.ts) and the hash grouping in
`buildDuplicatesReport` (src/report.ts) use the JavaScript pattern

    const group = m.get(key);
    if (group) { group.push(value); } else { m.set(key, [value]); }

over a `Map`, which iterates keys in insertion order.  `insertAssoc` is that
pattern over an association list kept in key-insertion order. -/

def insertAssoc {K V : Type} [DecidableEq K] (gs : List (K × List V)) (k : K) (v : V) :
    List (K × List V) :=
  if gs.any (fun g => g.1 = k) then
    gs.map (fun g => if g.1 = k then (g.1, g.2 ++ [v]) else g)
  else gs ++ [(k, [v])]

/-- First occurrences of the keys of a list, in order. -/
def dedupFirst {K : Type} [DecidableEq K] (l : List K) : List K :=
  l.foldl (fun acc k => if k ∈ acc then acc else acc ++ [k]) []

/-- The specification of insertion-order grouping: one entry per distinct
key in first-occurrence order, carrying that key's values in list order. -/
def groupsSpec {K V : Type} [DecidableEq K] (pairs : List (K × V)) : List (K × List V) :=
  (dedupFirst (pairs.map (fun p => p.1))).map
    (fun k => (k, (pairs.filter (fun p => p.1 = k)).map (fun p => p.2)))

theorem mem_foldl_dedupStep {K : Type} [DecidableEq K] (l : List K) :
    ∀ (acc : List K) (a : K),
      a ∈ l.foldl (fun acc k => if k ∈ acc then acc else acc ++ [k]) acc ↔
        a ∈ acc ∨ a ∈ l := by
  induction l with
  | nil => intro acc a; simp
  | cons x xs ih =>
    intro acc a
    rw [List.foldl_cons, ih]
    by_cases hx : x ∈ acc
    · rw [if_pos hx]
      constructor
      · rintro (h | h)
        · exact Or.inl h
        · exact Or.inr (List.mem_cons_of_mem _ h)
      · rintro (h | h)
        · exact Or.inl h
        · rcases List.mem_cons.mp h with rfl | h
          · exact Or.inl hx
          · exact Or.inr h
    · rw [if_neg hx]
      simp only [List.mem_append, List.mem_singleton, List.mem_cons]
      tauto

theorem mem_dedupFirst {K : Type} [DecidableEq K] (l : List K) (a : K) :
    a ∈ dedupFirst l ↔ a ∈ l := by
  unfold dedupFirst
  rw [mem_foldl_dedupStep]
  simp

theorem dedupFirst_append_singleton {K : Type} [DecidableEq K] (l : List K) (k : K) :
    dedupFirst (l ++ [k]) =
      if k ∈ dedupFirst l then dedupFirst l else dedupFirst l ++ [k] := by
  unfold dedupFirst
  rw [List.foldl_append]
  rfl

theorem groupsSpec_keys {K V : Type} [DecidableEq K] (pairs : List (K × V)) :
    (groupsSpec pairs).map (fun g => g.1) = dedupFirst (pairs.map (fun p => p.1)) := by
  unfold groupsSpec
  rw [List.map_map]
  exact List.map_id _

theorem insertAssoc_pos {K V : Type} [DecidableEq K] {gs : List (K × List V)} {k : K}
    (v : V) (h : (gs.any (fun g => g.1 = k)) = true) :
    insertAssoc gs k v = gs.map (fun g => if g.1 = k then (g.1, g.2 ++ [v]) else g) := by
  unfold insertAssoc
  rw [if_pos h]

theorem insertAssoc_neg {K V : Type} [DecidableEq K] {gs : List (K × List V)} {k : K}
    (v : V) (h : (gs.any (fun g => g.1 = k)) = false) :
    insertAssoc gs k v = gs ++ [(k, [v])] := by
  unfold insertAssoc
  rw [if_neg]
  simp [h]

/-- The single-step correspondence: inserting one pair into the grouped form
of a prefix yields the grouped form of the extended prefix. -/
theorem insertAssoc_groupsSpec {K V : Type} [DecidableEq K] (P : List (K × V)) (k : K) (v : V) :
    insertAssoc (groupsSpec P) k v = groupsSpec (P ++ [(k, v)]) := by
  have hkeys : ((groupsSpec P).any (fun g => g.1 = k)) =
      decide (k ∈ dedupFirst (P.map (fun p => p.1))) := by
    rw [Bool.eq_iff_iff]
    simp only [List.any_eq_true, decide_eq_true_eq]
    constructor
    · rintro ⟨g, hg, hgk⟩
      have := congrArg (fun l => (k ∈ l : Prop)) (groupsSpec_keys P)
      simp only [eq_iff_iff] at this
      rw [← this]
      exact hgk ▸ List.mem_map_of_mem _ hg
    · intro hk
      rw [← groupsSpec_keys P] at hk
      rcases List.mem_map.mp hk with ⟨g, hg, hgk⟩
      exact ⟨g, hg, by simp [hgk]⟩
  have hm : List.map (fun p => (p : K × V).1) (P ++ [(k, v)]) =
      List.map (fun p => (p : K × V).1) P ++ [k] := by simp
  by_cases hk : k ∈ dedupFirst (P.map (fun p => p.1))
  · have hany : ((groupsSpec P).any (fun g => g.1 = k)) = true := by
      rw [hkeys]
      simpa using hk
    rw [insertAssoc_pos v hany]
    show _ = groupsSpec (P ++ [(k, v)])
    unfold groupsSpec
    rw [hm, dedupFirst_append_singleton, if_pos hk, List.map_map]
    refine List.map_congr_left ?_
    intro d _
    simp only [Function.comp_apply]
    by_cases hdk : d = k
    · subst hdk
      simp [List.filter_append, List.filter_cons]
    · simp [List.filter_append, List.filter_cons, hdk, Ne.symm hdk]
  · have hany : ((groupsSpec P).any (fun g => g.1 = k)) = false := by
      rw [hkeys]
      simpa using hk
    rw [insertAssoc_neg v hany]
    have hfk : List.filter (fun p => decide (p.1 = k)) P = [] := by
      rw [List.filter_eq_nil_iff]
      intro p hp
      simp only [decide_eq_true_eq]
      rintro rfl
      exact hk ((mem_dedupFirst _ _).mpr (List.mem_map_of_mem _ hp))
    show _ = groupsSpec (P ++ [(k, v)])
    unfold groupsSpec
    rw [hm, dedupFirst_append_singleton, if_neg hk, List.map_append]
    congr 1
    · refine List.map_congr_left ?_
      intro d hd
      have hdk : d ≠ k := by
        rintro rfl
        exact hk hd
      simp [List.filter_append, List.filter_cons, Ne.symm hdk]
    · simp [List.filter_append, List.filter_cons, hfk]

/-- Folding `insertAssoc` over a pair list computes `groupsSpec`. -/
theorem foldl_insertAssoc_spec {K V : Type} [DecidableEq K] (pairs : List (K × V)) :
    pairs.foldl (fun gs p => insertAssoc gs p.1 p.2) [] = groupsSpec pairs := by
  have main : ∀ (rest P : List (K × V)),
      rest.foldl (fun gs p => insertAssoc gs p.1 p.2) (groupsSpec P) =
        groupsSpec (P ++ rest) := by
    intro rest
    induction rest with
    | nil => intro P; simp
    | cons p ps ih =>
      intro P
      rw [List.foldl_cons, insertAssoc_groupsSpec, ih]
      have hpe : (P ++ [(p.1, p.2)]) ++ ps = P ++ p :: ps := by simp
      rw [hpe]
  have h0 : (groupsSpec ([] : List (K × V))) = [] := rfl
  have := main pairs []
  rw [h0] at this
  simpa using this

/-! ## Walker: model of `walkDirectory` (src/scan.ts)

`readdir` with `withFileTypes` reports each entry's own type without
following links (`lstat` semantics), so a symbolic link is a `symlink`
entry whatever it points at.  `dir false` models a directory whose own
`readdir` rejects (logged, subtree skipped); `other` models entries that
are neither regular files, directories nor symlinks (FIFOs, devices,
sockets), which match none of the `isFile`/`isDirectory` branches. -/

inductive FSEntry where
  | file : FSEntry
  | dir (readable : Bool) (children : List (String × FSEntry)) : FSEntry
  | symlink (target : String) : FSEntry
  | other : FSEntry
deriving Repr

/-- Model of `walkDirectory` (src/scan.ts): the file paths handed to
`onFile`, in traversal order.  Per entry, in source order: a symbolic link
is skipped; a directory is recursed into (after `path.join`); a regular
file is reported as `path.join(rootDir, entry.name)`. -/
def walkDirectory (rootDir : String) : List (String × FSEntry) → List String
  | [] => []
  | (name, e) :: rest =>
    (match e with
     | .file => [rootDir ++ "/" ++ name]
     | .dir true cs => walkDirectory (rootDir ++ "/" ++ name) cs
     | .dir false _ => []
     | .symlink _ => []
     | .other => []) ++ walkDirectory rootDir rest

/-- The root-relative paths that reach a regular file from a directory
listing by traversing readable directories only — never a symbolic link. -/
inductive ReachesFile : List (String × FSEntry) → String → Prop where
  | here (name : String) (entries : List (String × FSEntry))
      (h : (name, FSEntry.file) ∈ entries) : ReachesFile entries name
  | deeper (name : String) (cs : List (String × FSEntry)) (p : String)
      (entries : List (String × FSEntry))
      (h : (name, FSEntry.dir true cs) ∈ entries) (hp : ReachesFile cs p) :
      ReachesFile entries (name ++ "/" ++ p)

theorem reachesFile_mono {l l' : List (String × FSEntry)} (hsub : ∀ x ∈ l, x ∈ l')
    {q : String} (h : ReachesFile l q) : ReachesFile l' q := by
  induction h with
  | here name entries hmem => exact ReachesFile.here name l' (hsub _ hmem)
  | deeper name cs p entries hmem hp _ =>
    exact ReachesFile.deeper name cs p l' (hsub _ hmem) hp

theorem reachesFile_cons_iff (name : String) (e : FSEntry) (rest : List (String × FSEntry))
    (q : String) :
    ReachesFile ((name, e) :: rest) q ↔
      (e = FSEntry.file ∧ q = name) ∨
      (∃ cs p, e = FSEntry.dir true cs ∧ ReachesFile cs p ∧ q = name ++ "/" ++ p) ∨
      ReachesFile rest q := by
  constructor
  · intro h
    cases h with
    | here =>
      rename_i hmem
      rcases List.mem_cons.mp hmem with heq | hmem'
      · injection heq with h1 h2
        exact Or.inl ⟨h2.symm, h1⟩
      · exact Or.inr (Or.inr (ReachesFile.here q rest hmem'))
    | deeper =>
      rename_i nm cs p hreach hmem
      rcases List.mem_cons.mp hmem with heq | hmem'
      · injection heq with h1 h2
        exact Or.inr (Or.inl ⟨cs, p, h2.symm, hreach, by rw [h1]⟩)
      · exact Or.inr (Or.inr (ReachesFile.deeper nm cs p rest hmem' hreach))
  · rintro (⟨rfl, rfl⟩ | ⟨cs, p, rfl, hp, rfl⟩ | h)
    · exact ReachesFile.here _ _ (List.mem_cons_self _ _)
    · exact ReachesFile.deeper _ cs p _ (List.mem_cons_self _ _) hp
    · exact reachesFile_mono (fun x hx => List.mem_cons_of_mem _ hx) h

theorem mem_walkDirectory_iff :
    ∀ (root : String) (entries : List (String × FSEntry)) (p : String),
      p ∈ walkDirectory root entries ↔ ∃ q, ReachesFile entries q ∧ p = root ++ "/" ++ q := by
  intro root entries
  induction root, entries using walkDirectory.induct with
  | case1 root =>
    intro p
    simp only [walkDirectory, List.not_mem_nil, false_iff]
    rintro ⟨q, hq, _⟩
    cases hq with
    | here _ _ hmem => exact List.not_mem_nil _ hmem
    | deeper _ _ _ _ hmem _ => exact List.not_mem_nil _ hmem
  | case2 root name e rest ihe ihrest =>
    intro p
    cases e with
    | file =>
      simp only [walkDirectory, List.mem_append, List.mem_singleton]
      constructor
      · rintro (rfl | h)
        · exact ⟨name, ReachesFile.here name _ (List.mem_cons_self _ _), rfl⟩
        · rcases (ihrest p).mp h with ⟨q, hq, rfl⟩
          exact ⟨q, reachesFile_mono (fun x hx => List.mem_cons_of_mem _ hx) hq, rfl⟩
      · rintro ⟨q, hq, rfl⟩
        rcases (reachesFile_cons_iff name _ rest q).mp hq with ⟨_, rfl⟩ |
          ⟨cs, p', heq, _, _⟩ | h
        · exact Or.inl rfl
        · exact FSEntry.noConfusion heq
        · exact Or.inr ((ihrest _).mpr ⟨q, h, rfl⟩)
    | dir readable cs =>
      cases readable with
      | true =>
        simp only [walkDirectory, List.mem_append]
        constructor
        · rintro (h | h)
          · rcases (ihe p).mp h with ⟨q', hq', rfl⟩
            refine ⟨name ++ "/" ++ q',
              ReachesFile.deeper name cs q' _ (List.mem_cons_self _ _) hq', ?_⟩
            simp [String.append_assoc]
          · rcases (ihrest p).mp h with ⟨q, hq, rfl⟩
            exact ⟨q, reachesFile_mono (fun x hx => List.mem_cons_of_mem _ hx) hq, rfl⟩
        · rintro ⟨q, hq, rfl⟩
          rcases (reachesFile_cons_iff name _ rest q).mp hq with ⟨heq, _⟩ |
            ⟨cs', p', heq, hp', rfl⟩ | h
          · exact FSEntry.noConfusion heq
          · injection heq with hb hcs
            subst hcs
            left
            refine (ihe _).mpr ⟨p', hp', ?_⟩
            simp [String.append_assoc]
          · exact Or.inr ((ihrest _).mpr ⟨q, h, rfl⟩)
      | false =>
        simp only [walkDirectory, List.nil_append]
        constructor
        · intro h
          rcases (ihrest p).mp h with ⟨q, hq, rfl⟩
          exact ⟨q, reachesFile_mono (fun x hx => List.mem_cons_of_mem _ hx) hq, rfl⟩
        · rintro ⟨q, hq, rfl⟩
          rcases (reachesFile_cons_iff name _ rest q).mp hq with ⟨heq, _⟩ |
            ⟨cs', p', heq, _, _⟩ | h
          · exact FSEntry.noConfusion heq
          · injection heq with hb _
            exact Bool.noConfusion hb
          · exact (ihrest _).mpr ⟨q, h, rfl⟩
    | symlink target =>
      simp only [walkDirectory, List.nil_append]
      constructor
      · intro h
        rcases (ihrest p).mp h with ⟨q, hq, rfl⟩
        exact ⟨q, reachesFile_mono (fun x hx => List.mem_cons_of_mem _ hx) hq, rfl⟩
      · rintro ⟨q, hq, rfl⟩
        rcases (reachesFile_cons_iff name _ rest q).mp hq with ⟨heq, _⟩ |
          ⟨cs', p', heq, _, _⟩ | h
        · exact FSEntry.noConfusion heq
        · exact FSEntry.noConfusion heq
        · exact (ihrest _).mpr ⟨q, h, rfl⟩
    | other =>
      simp only [walkDirectory, List.nil_append]
      constructor
      · intro h
        rcases (ihrest p).mp h with ⟨q, hq, rfl⟩
        exact ⟨q, reachesFile_mono (fun x hx => List.mem_cons_of_mem _ hx) hq, rfl⟩
      · rintro ⟨q, hq, rfl⟩
        rcases (reachesFile_cons_iff name _ rest q).mp hq with ⟨heq, _⟩ |
          ⟨cs', p', heq, _, _⟩ | h
        · exact FSEntry.noConfusion heq
        · exact FSEntry.noConfusion heq
        · exact (ihrest _).mpr ⟨q, h, rfl⟩

/-- C9: `walkDirectory` never follows a symbolic link: a path is reported to
the per-file callback iff it reaches a regular file from the root through
readable directories only — never through a symlink entry, whether the link
targets a file or a directory.  Concretely, a directory holding a real file
plus symlinks to a file and to a directory reports only the real file. -/
theorem walkDirectory_skips_symlinks :
    (∀ (root : String) (entries : List (String × FSEntry)) (p : String),
      p ∈ walkDirectory root entries ↔ ∃ q, ReachesFile entries q ∧ p = root ++ "/" ++ q) ∧
    walkDirectory "/r"
        [("real.txt", FSEntry.file), ("link.txt", FSEntry.symlink "/r/real.txt"),
         ("dirlink", FSEntry.symlink "/r/sub")] =
      ["/r/real.txt"] :=
  ⟨mem_walkDirectory_iff, by simp [walkDirectory]⟩

/-! ## Size Index: model of `collectSizeGroups` (src/scan.ts)

Per walker-reported file, in source order: skip when
`excludePath && filePath === excludePath` (JS truthiness: an absent or
empty exclude path disables the check); when an extension list was given,
skip unless `extSet.has(path.extname(filePath).toLowerCase())`; `stat` the
file, skipping on failure; skip non-regular files; insert the survivor into
the size-keyed insertion-ordered map. -/

/-- Byte size and regular-file flag of a successful `fs.promises.stat`. -/
structure StatInfo where
  isFile : Bool
  size : Nat
deriving DecidableEq, Repr

/-- Lower-casing per character, modelling JavaScript `toLowerCase` on the
ASCII strings extensions are made of. -/
def toLowerStr (s : String) : String := ⟨s.data.map Char.toLower⟩

/-- The basename characters of a POSIX path: everything after the last
separator. -/
def baseChars (p : String) : List Char :=
  (p.data.reverse.takeWhile (fun c => c ≠ '/')).reverse

/-- The characters after the last dot of a list, if any. -/
def afterLastDot : List Char → Option (List Char)
  | [] => none
  | c :: cs =>
    match afterLastDot cs with
    | some r => some r
    | none => if c = '.' then some cs else none

/-- Model of Node `path.extname`: the suffix of the basename from its last
dot; empty when the basename has no dot past its first character (so
leading-dot names have no extension), with `".."` special-cased to the
empty extension as in Node. -/
def extname (p : String) : String :=
  match baseChars p with
  | [] => ""
  | c0 :: rest =>
    if c0 :: rest = ['.', '.'] then ""
    else
      match afterLastDot rest with
      | some r => ⟨'.' :: r⟩
      | none => ""

/-- The two early-return filters of `collectSizeGroups`, in source order. -/
def passesFilters (excludePath : Option String) (extensions : Option (List String))
    (filePath : String) : Bool :=
  (match excludePath with
   | some p => !(p ≠ "" && filePath == p)
   | none => true) &&
  (match extensions with
   | some exts => exts.contains (toLowerStr (extname filePath))
   | none => true)

/-- The body of the walker callback in `collectSizeGroups`, acting on the
size-bucket map: apply the filters, `stat`, skip failures and non-regular
files, insert survivors. -/
def scanStep (excludePath : Option String) (extensions : Option (List String))
    (stat : String → Except String StatInfo) (gs : List (Nat × List String))
    (filePath : String) : List (Nat × List String) :=
  if passesFilters excludePath extensions filePath then
    match stat filePath with
    | .error _ => gs
    | .ok st => if st.isFile then insertAssoc gs st.size filePath else gs
  else gs

/-- Model of `collectSizeGroups` (src/scan.ts): fold the walker's reported
files through the filters and the `stat` oracle, bucketing survivors by
exact byte size, in key-insertion order. -/
def collectSizeGroups (walkFiles : List String) (excludePath : Option String)
    (extensions : Option (List String)) (stat : String → Except String StatInfo) :
    List (Nat × List String) :=
  walkFiles.foldl (scanStep excludePath extensions stat) []

/-- The (size, path) pair a single walker report contributes, if any. -/
def scanPair (excludePath : Option String) (extensions : Option (List String))
    (stat : String → Except String StatInfo) (filePath : String) :
    Option (Nat × String) :=
  if passesFilters excludePath extensions filePath then
    match stat filePath with
    | .error _ => none
    | .ok st => if st.isFile then some (st.size, filePath) else none
  else none

/-- The (size, path) pairs that survive scanning, in walk order. -/
def scanPairs (walkFiles : List String) (excludePath : Option String)
    (extensions : Option (List String)) (stat : String → Except String StatInfo) :
    List (Nat × String) :=
  walkFiles.filterMap (scanPair excludePath extensions stat)

theorem scanStep_eq_none {excl : Option String} {exts : Option (List String)}
    {stat : String → Except String StatInfo} {f : String}
    (h : scanPair excl exts stat f = none) (gs : List (Nat × List String)) :
    scanStep excl exts stat gs f = gs := by
  unfold scanStep
  by_cases hp : passesFilters excl exts f
  · have h1 : (match stat f with
        | Except.error _ => (none : Option (Nat × String))
        | Except.ok st => if st.isFile then some (st.size, f) else none) = none := by
      unfold scanPair at h
      rwa [if_pos hp] at h
    rw [if_pos hp]
    cases hst : stat f with
    | error e => rfl
    | ok st =>
      rw [hst] at h1
      have h2 : (if st.isFile then some (st.size, f) else (none : Option (Nat × String))) =
          none := h1
      show (if st.isFile then insertAssoc gs st.size f else gs) = gs
      by_cases hif : st.isFile
      · rw [if_pos hif] at h2
        exact Option.noConfusion h2
      · rw [if_neg hif]
  · rw [if_neg hp]

theorem scanStep_eq_some {excl : Option String} {exts : Option (List String)}
    {stat : String → Except String StatInfo} {f : String} (sz : Nat) (f' : String)
    (h : scanPair excl exts stat f = some (sz, f')) (gs : List (Nat × List String)) :
    scanStep excl exts stat gs f = insertAssoc gs sz f' := by
  unfold scanStep
  by_cases hp : passesFilters excl exts f
  · have h1 : (match stat f with
        | Except.error _ => (none : Option (Nat × String))
        | Except.ok st => if st.isFile then some (st.size, f) else none) = some (sz, f') := by
      unfold scanPair at h
      rwa [if_pos hp] at h
    rw [if_pos hp]
    cases hst : stat f with
    | error e =>
      rw [hst] at h1
      exact Option.noConfusion h1
    | ok st =>
      rw [hst] at h1
      have h2 : (if st.isFile then some (st.size, f) else (none : Option (Nat × String))) =
          some (sz, f') := h1
      show (if st.isFile then insertAssoc gs st.size f else gs) = insertAssoc gs sz f'
      by_cases hif : st.isFile
      · rw [if_pos hif] at h2
        rw [if_pos hif]
        injection h2 with h2
        injection h2 with h3 h4
        rw [h3, h4]
      · rw [if_neg hif] at h2
        exact Option.noConfusion h2
  · have h1 : (none : Option (Nat × String)) = some (sz, f') := by
      unfold scanPair at h
      rwa [if_neg hp] at h
    exact Option.noConfusion h1

theorem collectSizeGroups_eq_groupsSpec (walkFiles : List String)
    (excludePath : Option String) (extensions : Option (List String))
    (stat : String → Except String StatInfo) :
    collectSizeGroups walkFiles excludePath extensions stat =
      groupsSpec (scanPairs walkFiles excludePath extensions stat) := by
  rw [← foldl_insertAssoc_spec]
  unfold collectSizeGroups scanPairs
  generalize ([] : List (Nat × List String)) = gs0
  induction walkFiles generalizing gs0 with
  | nil => rfl
  | cons f fs ih =>
    cases hsp : scanPair excludePath extensions stat f with
    | none =>
      simp only [List.foldl_cons, List.filterMap_cons, hsp]
      rw [scanStep_eq_none hsp]
      exact ih gs0
    | some pr =>
      simp only [List.foldl_cons, List.filterMap_cons, hsp]
      rw [scanStep_eq_some pr.1 pr.2 (by simpa using hsp)]
      exact ih _

theorem mem_groupsSpec {K V : Type} [DecidableEq K] (pairs : List (K × V)) (k : K)
    (vs : List V) :
    (k, vs) ∈ groupsSpec pairs ↔
      k ∈ pairs.map (fun p => p.1) ∧
        vs = (pairs.filter (fun p => p.1 = k)).map (fun p => p.2) := by
  unfold groupsSpec
  constructor
  · intro h
    rcases List.mem_map.mp h with ⟨d, hd, heq⟩
    injection heq with h1 h2
    subst h1
    exact ⟨(mem_dedupFirst _ _).mp hd, h2.symm⟩
  · rintro ⟨hk, rfl⟩
    exact List.mem_map.mpr ⟨k, (mem_dedupFirst _ _).mpr hk, rfl⟩

theorem mem_groupsSpec_value {K V : Type} [DecidableEq K] (pairs : List (K × V)) (k : K)
    (v : V) :
    (∃ vs, (k, vs) ∈ groupsSpec pairs ∧ v ∈ vs) ↔ (k, v) ∈ pairs := by
  constructor
  · rintro ⟨vs, hg, hv⟩
    rw [mem_groupsSpec] at hg
    rcases hg with ⟨hk, rfl⟩
    rcases List.mem_map.mp hv with ⟨p, hp, rfl⟩
    have hpm := List.mem_filter.mp hp
    have hk' : p.1 = k := by simpa using hpm.2
    have hkp : (k, p.2) = p := by rw [← hk']
    rw [hkp]
    exact hpm.1
  · intro h
    refine ⟨(pairs.filter (fun p => p.1 = k)).map (fun p => p.2), ?_, ?_⟩
    · rw [mem_groupsSpec]
      exact ⟨List.mem_map.mpr ⟨(k, v), h, rfl⟩, rfl⟩
    · exact List.mem_map.mpr ⟨(k, v), List.mem_filter.mpr ⟨h, by simp⟩, rfl⟩

theorem extFilter_iff (exts : List String) (x : String)
    (hnorm : ∀ e ∈ exts, toLowerStr e = e) :
    exts.contains (toLowerStr x) = true ↔ ∃ e ∈ exts, toLowerStr x = toLowerStr e := by
  simp only [List.contains, List.elem_iff]
  constructor
  · intro h
    exact ⟨toLowerStr x, h, (hnorm _ h).symm⟩
  · rintro ⟨e, he, hee⟩
    rw [hee, hnorm e he]
    exact he

theorem exclFilter_iff (p fp : String) (hp : p ≠ "") :
    (!(p ≠ "" && fp == p)) = true ↔ some p ≠ some fp := by
  have hd : decide (p ≠ "") = true := by simp [hp]
  constructor
  · intro h hc
    injection hc with hc
    subst hc
    simp [hd] at h
  · intro h
    have hne : (fp == p) = false := by
      rw [beq_eq_false_iff_ne]
      intro hfp
      exact h (by rw [hfp])
    simp [hd, hne]

theorem passesFilters_iff (excl : Option String) (extOpt : Option (List String))
    (fp : String) (hexcl : ∀ p, excl = some p → p ≠ "")
    (hnorm : ∀ exts, extOpt = some exts → ∀ e ∈ exts, toLowerStr e = e) :
    passesFilters excl extOpt fp = true ↔
      (excl ≠ some fp ∧
       ∀ exts, extOpt = some exts →
         ∃ e ∈ exts, toLowerStr (extname fp) = toLowerStr e) := by
  cases excl with
  | none =>
    cases extOpt with
    | none => simp [passesFilters]
    | some exts =>
      show (true && exts.contains (toLowerStr (extname fp))) = true ↔ _
      rw [Bool.true_and, extFilter_iff _ _ (hnorm exts rfl)]
      constructor
      · intro h
        refine ⟨fun hc => Option.noConfusion hc, fun exts' heq => ?_⟩
        injection heq with heq
        subst heq
        exact h
      · rintro ⟨_, h⟩
        exact h exts rfl
  | some p =>
    have hp : p ≠ "" := hexcl p rfl
    cases extOpt with
    | none =>
      show ((!(p ≠ "" && fp == p)) && true) = true ↔ _
      rw [Bool.and_true, exclFilter_iff p fp hp]
      constructor
      · intro h
        exact ⟨h, fun _ heq => Option.noConfusion heq⟩
      · exact And.left
    | some exts =>
      show ((!(p ≠ "" && fp == p)) && exts.contains (toLowerStr (extname fp))) = true ↔ _
      rw [Bool.and_eq_true, exclFilter_iff p fp hp, extFilter_iff _ _ (hnorm exts rfl)]
      constructor
      · rintro ⟨h1, h2⟩
        refine ⟨h1, fun exts' heq => ?_⟩
        injection heq with heq
        subst heq
        exact h2
      · rintro ⟨h1, h2⟩
        exact ⟨h1, h2 exts rfl⟩

/-- C8: a walker-reported file enters a size bucket iff it is not the
supplied exclude path (textual comparison), its extension matches an entry
of the supplied allow-list case-insensitively (extensions in normalized
leading-dot form), and it stats as a regular file of that bucket's size.
Hypotheses: a supplied exclude path is non-empty (callers pass a resolved
output path), and allow-list entries are normalized (lower-case), as the
spec's "normalized leading-dot form" states. -/
theorem collectSizeGroups_filter_characterization (walkFiles : List String)
    (excl : Option String) (extOpt : Option (List String))
    (stat : String → Except String StatInfo)
    (hexcl : ∀ p, excl = some p → p ≠ "")
    (hnorm : ∀ exts, extOpt = some exts → ∀ e ∈ exts, toLowerStr e = e)
    (fp : String) (size : Nat) :
    (∃ fs, (size, fs) ∈ collectSizeGroups walkFiles excl extOpt stat ∧ fp ∈ fs) ↔
      (fp ∈ walkFiles ∧ excl ≠ some fp ∧
       (∀ exts, extOpt = some exts →
         ∃ e ∈ exts, toLowerStr (extname fp) = toLowerStr e) ∧
       (∃ st, stat fp = Except.ok st ∧ st.isFile = true ∧ st.size = size)) := by
  rw [collectSizeGroups_eq_groupsSpec]
  rw [mem_groupsSpec_value]
  unfold scanPairs
  rw [List.mem_filterMap]
  constructor
  · rintro ⟨f, hf, hpair⟩
    unfold scanPair at hpair
    by_cases hp : passesFilters excl extOpt f
    · rw [if_pos hp] at hpair
      cases hst : stat f with
      | error e =>
        rw [hst] at hpair
        exact Option.noConfusion hpair
      | ok st =>
        rw [hst] at hpair
        have h2 : (if st.isFile then some (st.size, f) else (none : Option (Nat × String))) =
            some (size, fp) := hpair
        by_cases hif : st.isFile
        · rw [if_pos hif] at h2
          injection h2 with h2
          injection h2 with h3 h4
          subst h4
          rcases (passesFilters_iff excl extOpt f hexcl hnorm).mp hp with ⟨he, hx⟩
          exact ⟨hf, he, hx, st, hst, hif, h3⟩
        · rw [if_neg hif] at h2
          exact Option.noConfusion h2
    · rw [if_neg hp] at hpair
      exact Option.noConfusion hpair
  · rintro ⟨hfw, he, hx, st, hst, hif, hsz⟩
    refine ⟨fp, hfw, ?_⟩
    unfold scanPair
    rw [if_pos ((passesFilters_iff excl extOpt fp hexcl hnorm).mpr ⟨he, hx⟩), hst]
    show (if st.isFile then some (st.size, fp) else (none : Option (Nat × String))) =
      some (size, fp)
    rw [if_pos hif, hsz]

/-- A constant stat oracle for the C8 witness scan. -/
def statC8 : String → Except String StatInfo := fun _ => Except.ok ⟨true, 7⟩

/-- Witness for C8 at a concrete scan. -/
theorem collectSizeGroups_filter_characterization_witness :
    (∃ fs, (7, fs) ∈ collectSizeGroups ["/d/a.txt", "/d/b.jpg"] none (some [".txt"])
        statC8 ∧ "/d/a.txt" ∈ fs) ↔
      ("/d/a.txt" ∈ ["/d/a.txt", "/d/b.jpg"] ∧ none ≠ some "/d/a.txt" ∧
       (∀ exts, some [".txt"] = some exts →
         ∃ e ∈ exts, toLowerStr (extname "/d/a.txt") = toLowerStr e) ∧
       (∃ st, statC8 "/d/a.txt" = Except.ok st ∧ st.isFile = true ∧ st.size = 7)) :=
  collectSizeGroups_filter_characterization ["/d/a.txt", "/d/b.jpg"] none (some [".txt"])
    statC8
    (fun p hp => Option.noConfusion hp)
    (fun exts hx e he => by
      injection hx with hx
      subst hx
      rcases List.mem_singleton.mp he with rfl
      rfl)
    "/d/a.txt" 7

/-! ## Report Builder: model of `buildDuplicatesReport` (src/report.ts)

The builder takes the size groups from `collectSizeGroups`, computes
`filesScanned` and the candidate list, runs the executor over the
candidates with a mapper that catches `hashFile` rejections itself
(logging to stderr and returning `null`), translates the executor's error
list into `HashError`s, groups successes by digest in a `Map` (insertion
order), and folds the duplicate groups into the report text and the
statistics.  File hashing and the re-`stat` for wasted bytes are oracles
`hashOutcome`/`statSize`; the executor's value is the schedule-independent
one established by `mapWithConcurrency_terminal` (its error order cannot
matter: this mapper never rejects). -/

structure HashResult where
  filePath : String
  hash : String
deriving DecidableEq, Repr

structure HashError where
  filePath : String
  error : String
deriving DecidableEq, Repr

structure ScanStats where
  filesScanned : Nat
  filesHashed : Nat
  hashErrors : Nat
  duplicateGroups : Nat
  duplicateFiles : Nat
  wastedBytes : Nat
deriving DecidableEq, Repr

structure ReportResult where
  report : String
  errors : List HashError
  stats : ScanStats
deriving DecidableEq, Repr

/-- `totalFiles` accumulation: `for (files of sizeGroups.values()) totalFiles += files.length`. -/
def totalFilesOf (sizeGroups : List (Nat × List String)) : Nat :=
  sizeGroups.foldl (fun acc g => acc + g.2.length) 0

/-- Candidate extraction: `if (files.length >= 2) candidates.push(...files)`. -/
def candidatesOf (sizeGroups : List (Nat × List String)) : List String :=
  sizeGroups.foldl (fun acc g => if 2 ≤ g.2.length then acc ++ g.2 else acc) []

/-- The mapper `buildDuplicatesReport` hands to `mapWithConcurrency`:
try `hashFile`; on success resolve `{ filePath, hash }`; on failure log
`console.error` and resolve `null`.  It never rejects. -/
def reportMapper (hashOutcome : String → Except String String) (filePath : String) :
    Except String (Option HashResult) :=
  match hashOutcome filePath with
  | .ok h => Except.ok (some ⟨filePath, h⟩)
  | .error _ => Except.ok none

/-- The stderr lines the mapper's catch block prints, one per hash failure
(shown here in submission order; the real order is completion order). -/
def reportHashLog (candidates : List String) (hashOutcome : String → Except String String) :
    List String :=
  candidates.filterMap
    (fun c =>
      match hashOutcome c with
      | .error m => some ("Error hashing file: " ++ c ++ ": " ++ m)
      | .ok _ => none)

/-- The value `await mapWithConcurrency(items, limit, mapper)` evaluates to,
as pinned down for every schedule (with ≥ 1 worker) by
`mapWithConcurrency_terminal`: results slot `i` holds `slotVal` of the
mapper's outcome for `items[i]`; the error list carries one entry per
rejected index (given here in index order; the schedule only permutes it,
and the report builder's mapper never rejects, so its order is immaterial
downstream). -/
def mapWithConcurrencyRun {T R E : Type} (items : List T)
    (mapper : T → Except E (Option R)) :
    (List (Option R)) × List (ErrEntry T E) :=
  (items.map (fun it => slotVal (mapper it)),
   items.enum.filterMap
     (fun p =>
       match mapper p.2 with
       | .error e => some ⟨p.1, p.2, e⟩
       | .ok _ => none))

/-- One step of hash grouping: skip a `null` slot, otherwise insert the
`(hash, filePath)` pair into the digest-keyed insertion-ordered map. -/
def groupStep (gs : List (String × List String)) (r : Option HashResult) :
    List (String × List String) :=
  match r with
  | none => gs
  | some hr => insertAssoc gs hr.hash hr.filePath

/-- Hash grouping: `hashGroups.get/push/set` over the results array,
skipping `null` slots. -/
def groupByHash (results : List (Option HashResult)) : List (String × List String) :=
  results.foldl groupStep []

/-- One duplicate group's block: `Hash: <digest>` then one `- <path>` line
per member, each line newline-terminated. -/
def formatBlock (digest : String) (files : List String) : String :=
  files.foldl (fun acc f => acc ++ "- " ++ f ++ "\n") ("Hash: " ++ digest ++ "\n")

/-- Accumulator of the final grouping loop in `buildDuplicatesReport`. -/
structure ReportAcc where
  report : String
  duplicateGroups : Nat
  duplicateFiles : Nat
  wastedBytes : Nat
deriving DecidableEq, Repr

/-- A duplicate group's wasted-bytes contribution:
`stat(files[0]).size * (files.length - 1)`, with a stat failure swallowed
(`// Ignore stat errors`) so the group contributes 0. -/
def wastedOf (statSize : String → Except String Nat) (g : String × List String) : Nat :=
  match g.2 with
  | [] => 0
  | f :: _ =>
    match statSize f with
    | .ok sz => sz * (g.2.length - 1)
    | .error _ => 0

/-- One iteration of the final loop: skip groups of fewer than two members;
otherwise bump the counters, add the wasted-bytes contribution, and append
the formatted block plus a blank line. -/
def reportStep (statSize : String → Except String Nat) (acc : ReportAcc)
    (g : String × List String) : ReportAcc :=
  if g.2.length < 2 then acc
  else
    { report := acc.report ++ formatBlock g.1 g.2 ++ "\n"
      duplicateGroups := acc.duplicateGroups + 1
      duplicateFiles := acc.duplicateFiles + g.2.length
      wastedBytes := acc.wastedBytes + wastedOf statSize g }

/-- Model of `buildDuplicatesReport` (src/report.ts), taking the size
groups produced by `collectSizeGroups` and the hashing / re-stat oracles. -/
def buildDuplicatesReport (sizeGroups : List (Nat × List String))
    (hashOutcome : String → Except String String)
    (statSize : String → Except String Nat) : ReportResult :=
  let totalFiles := totalFilesOf sizeGroups
  let candidates := candidatesOf sizeGroups
  let hashingResult := mapWithConcurrencyRun candidates (reportMapper hashOutcome)
  let errors : List HashError := hashingResult.2.map (fun e => ⟨e.item, e.error⟩)
  let hashGroups := groupByHash hashingResult.1
  let acc := hashGroups.foldl (reportStep statSize) ⟨"", 0, 0, 0⟩
  { report := acc.report
    errors := errors
    stats :=
      { filesScanned := totalFiles
        filesHashed := candidates.length
        hashErrors := errors.length
        duplicateGroups := acc.duplicateGroups
        duplicateFiles := acc.duplicateFiles
        wastedBytes := acc.wastedBytes } }

/-- Refinement justification: with at least one worker, every schedule's
terminal results array equals `mapWithConcurrencyRun`'s results, and for a
mapper that never rejects (the report builder's case) the terminal error
list is empty — so building on `mapWithConcurrencyRun` reproduces every
real run of the executor. -/
theorem mapWithConcurrencyRun_is_terminal {T R E : Type} [Inhabited T] (items : List T)
    (mapper : T → Except E (Option R)) (limit : Int) (s : ExecState T R E)
    (hl : 1 ≤ limit)
    (hr : Reachable (fun i => items.getD i default)
      (fun i => mapper (items.getD i default)) limit items.length s)
    (hd : allDone s = true) :
    s.results = (mapWithConcurrencyRun items mapper).1.map some ∧
    ((∀ it : T, ∃ v, mapper it = Except.ok v) → s.errors = []) := by
  obtain ⟨hlen, hslots, _, _⟩ :=
    mapWithConcurrency_terminal (fun i => items.getD i default)
      (fun i => mapper (items.getD i default)) limit items.length s hl hr hd
  constructor
  · apply List.ext_getElem?
    intro i
    by_cases hi : i < items.length
    · rw [hslots i hi]
      have hg : items.getD i default = items[i] := List.getD_eq_getElem items default hi
      rw [hg, List.getElem?_map]
      have hrun : (mapWithConcurrencyRun items mapper).1[i]? =
          some (slotVal (mapper items[i])) := by
        show (items.map (fun it => slotVal (mapper it)))[i]? = _
        rw [List.getElem?_map, List.getElem?_eq_getElem hi]
        rfl
      rw [hrun]
      rfl
    · have h1 : ((mapWithConcurrencyRun items mapper).1.map some).length ≤ i := by
        rw [List.length_map]
        show (items.map (fun it => slotVal (mapper it))).length ≤ i
        rw [List.length_map]
        omega
      rw [List.getElem?_eq_none (by omega), List.getElem?_eq_none h1]
  · intro htotal
    cases hcase : s.errors with
    | nil => rfl
    | cons ent rest =>
      have hment : ent ∈ s.errors := by
        rw [hcase]
        exact List.mem_cons_self _ _
      have inv := execInv_reachable hr
      obtain ⟨_, _, ho, _⟩ := inv.err_mem ent hment
      rcases htotal (items.getD ent.index default) with ⟨v, hv⟩
      rw [hv] at ho
      exact Except.noConfusion ho

theorem totalFilesOf_eq (sizeGroups : List (Nat × List String)) :
    totalFilesOf sizeGroups = (sizeGroups.map (fun g => g.2.length)).sum := by
  unfold totalFilesOf
  have main : ∀ (l : List (Nat × List String)) (a : Nat),
      l.foldl (fun acc g => acc + g.2.length) a = a + (l.map (fun g => g.2.length)).sum := by
    intro l
    induction l with
    | nil => intro a; simp
    | cons g gs ih =>
      intro a
      rw [List.foldl_cons, ih, List.map_cons, List.sum_cons]
      omega
  simpa using main sizeGroups 0

theorem candidatesOf_eq (sizeGroups : List (Nat × List String)) :
    candidatesOf sizeGroups =
      ((sizeGroups.filter (fun g => 2 ≤ g.2.length)).map (fun g => g.2)).flatten := by
  unfold candidatesOf
  have main : ∀ (l : List (Nat × List String)) (a : List String),
      l.foldl (fun acc g => if 2 ≤ g.2.length then acc ++ g.2 else acc) a =
        a ++ ((l.filter (fun g => 2 ≤ g.2.length)).map (fun g => g.2)).flatten := by
    intro l
    induction l with
    | nil => intro a; simp
    | cons g gs ih =>
      intro a
      rw [List.foldl_cons]
      by_cases h2 : 2 ≤ g.2.length
      · rw [if_pos h2, ih, List.filter_cons_of_pos (by simpa using h2)]
        simp [List.append_assoc]
      · rw [if_neg h2, ih, List.filter_cons_of_neg (by simpa using h2)]
  simpa using main sizeGroups []

/-- C4: the candidate list handed to the hashing executor is exactly the
concatenation, in bucket-then-member order, of every size bucket with at
least two members; `stats.filesScanned` is the total file count across all
buckets and `stats.filesHashed` is the candidate count. -/
theorem buildDuplicatesReport_candidates_stats (sizeGroups : List (Nat × List String))
    (ho : String → Except String String) (st : String → Except String Nat) :
    candidatesOf sizeGroups =
      ((sizeGroups.filter (fun g => 2 ≤ g.2.length)).map (fun g => g.2)).flatten ∧
    (buildDuplicatesReport sizeGroups ho st).stats.filesScanned =
      (sizeGroups.map (fun g => g.2.length)).sum ∧
    (buildDuplicatesReport sizeGroups ho st).stats.filesHashed =
      (candidatesOf sizeGroups).length :=
  ⟨candidatesOf_eq sizeGroups, totalFilesOf_eq sizeGroups, rfl⟩

/-- The size groups, hash oracle and re-stat oracle of the C1 failing run:
two same-size candidates, of which `/bad.txt` cannot be read at hash time. -/
def gsC1 : List (Nat × List String) := [(4, ["/ok.txt", "/bad.txt"])]

def hoC1 : String → Except String String :=
  fun p => if p = "/bad.txt" then Except.error "EACCES: permission denied" else Except.ok "d1"

def stC1 : String → Except String Nat := fun _ => Except.ok 4

/-- C1 evaluated at the failing input: the mapper in `buildDuplicatesReport`
catches the `hashFile` rejection itself and resolves `null`, so the
executor records no error.  The failed candidate `/bad.txt` ends with
neither a hash-group membership nor a `HashError`: the returned error list
is empty and `stats.hashErrors` is 0, the failure surviving only as a
stderr log line, while the batch itself continues (the sibling candidate
is still hashed and grouped). -/
theorem buildDuplicatesReport_hash_failure_unreported :
    hoC1 "/bad.txt" = Except.error "EACCES: permission denied" ∧
    (buildDuplicatesReport gsC1 hoC1 stC1).errors = [] ∧
    (buildDuplicatesReport gsC1 hoC1 stC1).stats.hashErrors = 0 ∧
    groupByHash (mapWithConcurrencyRun (candidatesOf gsC1) (reportMapper hoC1)).1 =
      [("d1", ["/ok.txt"])] ∧
    reportHashLog (candidatesOf gsC1) hoC1 =
      ["Error hashing file: /bad.txt: EACCES: permission denied"] := by
  exact ⟨rfl, rfl, rfl, rfl, rfl⟩

/-! ### Report text shape (C5) -/

/-- The `(digest, filePath)` pairs of the successfully hashed candidates,
in submission order. -/
def hashPairs (candidates : List String) (hashOutcome : String → Except String String) :
    List (String × String) :=
  candidates.filterMap
    (fun c =>
      match hashOutcome c with
      | .ok h => some (h, c)
      | .error _ => none)

theorem groupStep_ok {ho : String → Except String String} {c h : String}
    (hoc : ho c = Except.ok h) (gs : List (String × List String)) :
    groupStep gs (slotVal (reportMapper ho c)) = insertAssoc gs h c := by
  unfold reportMapper
  rw [hoc]
  rfl

theorem groupStep_err {ho : String → Except String String} {c m : String}
    (hoc : ho c = Except.error m) (gs : List (String × List String)) :
    groupStep gs (slotVal (reportMapper ho c)) = gs := by
  unfold reportMapper
  rw [hoc]
  rfl

theorem groupByHash_eq_groupsSpec (candidates : List String)
    (ho : String → Except String String) :
    groupByHash (mapWithConcurrencyRun candidates (reportMapper ho)).1 =
      groupsSpec (hashPairs candidates ho) := by
  rw [← foldl_insertAssoc_spec]
  show (candidates.map (fun c => slotVal (reportMapper ho c))).foldl groupStep [] = _
  unfold hashPairs
  generalize ([] : List (String × List String)) = gs0
  induction candidates generalizing gs0 with
  | nil => rfl
  | cons c cs ih =>
    rw [List.map_cons, List.foldl_cons, List.filterMap_cons]
    cases hoc : ho c with
    | ok h =>
      rw [groupStep_ok hoc]
      show _ = List.foldl (fun gs p => insertAssoc gs p.1 p.2) gs0
        ((h, c) :: List.filterMap
          (fun c =>
            match ho c with
            | Except.ok h => some (h, c)
            | Except.error _ => none) cs)
      rw [List.foldl_cons]
      exact ih _
    | error m =>
      rw [groupStep_err hoc]
      show _ = List.foldl (fun gs p => insertAssoc gs p.1 p.2) gs0
        (List.filterMap
          (fun c =>
            match ho c with
            | Except.ok h => some (h, c)
            | Except.error _ => none) cs)
      exact ih gs0

theorem string_join_nil : String.join [] = "" := rfl

theorem string_foldl_append (xs : List String) :
    ∀ a : String, xs.foldl (fun r s => r ++ s) a = a ++ String.join xs := by
  induction xs with
  | nil =>
    intro a
    rw [List.foldl_nil, string_join_nil, String.append_empty]
  | cons x xs ih =>
    intro a
    rw [List.foldl_cons, ih]
    show _ = a ++ String.join (x :: xs)
    have hx : String.join (x :: xs) = x ++ String.join xs := by
      show List.foldl (fun r s => r ++ s) ("" ++ x) xs = _
      rw [String.empty_append, ih]
    rw [hx, String.append_assoc]

theorem string_join_cons (x : String) (xs : List String) :
    String.join (x :: xs) = x ++ String.join xs := by
  show List.foldl (fun r s => r ++ s) ("" ++ x) xs = _
  rw [String.empty_append, string_foldl_append]

theorem formatBlock_eq (digest : String) (files : List String) :
    formatBlock digest files =
      "Hash: " ++ digest ++ "\n" ++
        String.join (files.map (fun f => "- " ++ f ++ "\n")) := by
  unfold formatBlock
  have main : ∀ (l : List String) (a : String),
      l.foldl (fun acc f => acc ++ "- " ++ f ++ "\n") a =
        a ++ String.join (l.map (fun f => "- " ++ f ++ "\n")) := by
    intro l
    induction l with
    | nil =>
      intro a
      rw [List.foldl_nil, List.map_nil, string_join_nil, String.append_empty]
    | cons f fs ih =>
      intro a
      rw [List.foldl_cons, ih, List.map_cons, string_join_cons]
      simp [String.append_assoc]
  rw [main]

/-- Join newline-terminated blocks the way the claim describes: each block
followed by the blank-line separator, except after the last. -/
def sepJoin (sep : String) : List String → String
  | [] => ""
  | [b] => b
  | b :: b' :: bs => b ++ sep ++ sepJoin sep (b' :: bs)

theorem join_map_newline (blocks : List String) (h : blocks ≠ []) :
    String.join (blocks.map (fun b => b ++ "\n")) = sepJoin "\n" blocks ++ "\n" := by
  induction blocks with
  | nil => exact absurd rfl h
  | cons b bs ih =>
    cases bs with
    | nil =>
      rw [List.map_cons, List.map_nil, string_join_cons, string_join_nil,
        String.append_empty]
      rfl
    | cons b' bs' =>
      rw [List.map_cons, string_join_cons, ih (by simp)]
      show _ = b ++ "\n" ++ sepJoin "\n" (b' :: bs') ++ "\n"
      simp [String.append_assoc]

theorem foldl_reportStep_eq (st : String → Except String Nat)
    (groups : List (String × List String)) :
    ∀ acc : ReportAcc,
      groups.foldl (reportStep st) acc =
        { report := acc.report ++
            String.join ((groups.filter (fun g => 2 ≤ g.2.length)).map
              (fun g => formatBlock g.1 g.2 ++ "\n"))
          duplicateGroups := acc.duplicateGroups +
            (groups.filter (fun g => 2 ≤ g.2.length)).length
          duplicateFiles := acc.duplicateFiles +
            ((groups.filter (fun g => 2 ≤ g.2.length)).map (fun g => g.2.length)).sum
          wastedBytes := acc.wastedBytes +
            ((groups.filter (fun g => 2 ≤ g.2.length)).map (wastedOf st)).sum } := by
  induction groups with
  | nil =>
    intro acc
    cases acc with
    | mk r dg df wb =>
      simp [string_join_nil, String.append_empty]
  | cons g gs ih =>
    intro acc
    rw [List.foldl_cons]
    by_cases h2 : 2 ≤ g.2.length
    · rw [List.filter_cons_of_pos (by simpa using h2)]
      have hstep : reportStep st acc g =
          ⟨acc.report ++ formatBlock g.1 g.2 ++ "\n", acc.duplicateGroups + 1,
           acc.duplicateFiles + g.2.length, acc.wastedBytes + wastedOf st g⟩ := by
        unfold reportStep
        rw [if_neg (by omega)]
      rw [hstep, ih]
      rw [List.map_cons, List.map_cons, List.map_cons, string_join_cons,
        List.length_cons, List.sum_cons, List.sum_cons]
      simp only [ReportAcc.mk.injEq]
      refine ⟨?_, by omega, by omega, by omega⟩
      simp [String.append_assoc]
    · rw [List.filter_cons_of_neg (by simpa using h2)]
      have hstep : reportStep st acc g = acc := by
        unfold reportStep
        rw [if_pos (by omega)]
      rw [hstep]
      exact ih acc

theorem filter_map_general {A B : Type} (f : A → B) (p : B → Bool) (q : A → Bool)
    (l : List A) (h : ∀ a ∈ l, p (f a) = q a) :
    (l.map f).filter p = (l.filter q).map f := by
  induction l with
  | nil => rfl
  | cons a as ih =>
    have hh : ∀ x ∈ as, p (f x) = q x := fun x hx => h x (List.mem_cons_of_mem _ hx)
    rw [List.map_cons, List.filter_cons, List.filter_cons, h a (List.mem_cons_self _ _)]
    by_cases hq : q a = true
    · rw [if_pos hq, if_pos hq, List.map_cons, ih hh]
    · rw [if_neg hq, if_neg hq, ih hh]

theorem mapFilter_groupsSpec (pairs : List (String × String)) :
    ((groupsSpec pairs).filter (fun g => 2 ≤ g.2.length)).map
        (fun g => formatBlock g.1 g.2 ++ "\n") =
      ((dedupFirst (pairs.map (fun p => p.1))).filter
          (fun d => 2 ≤ (pairs.filter (fun p => p.1 = d)).length)).map
        (fun d =>
          ("Hash: " ++ d ++ "\n" ++
            String.join ((pairs.filter (fun p => p.1 = d)).map
              (fun p => "- " ++ p.2 ++ "\n"))) ++ "\n") := by
  unfold groupsSpec
  have hfm := filter_map_general
    (fun k => (k, (pairs.filter (fun p => p.1 = k)).map (fun p => p.2)))
    (fun g => decide (2 ≤ g.2.length))
    (fun d => decide (2 ≤ (pairs.filter (fun p => p.1 = d)).length))
    (dedupFirst (pairs.map (fun p => p.1)))
    (fun d _ => by simp [List.length_map])
  rw [hfm, List.map_map]
  refine List.map_congr_left ?_
  intro d _
  simp only [Function.comp_apply]
  rw [formatBlock_eq, List.map_map]
  rfl

/-- C5: when at least one hash group has two or more members, the report
text consists of one block per such group — the line `Hash: <digest>`
followed by one `- <path>` line per member, every line newline-terminated —
with blocks separated by one blank line (and a final newline after the last
block, as emitted); members appear in candidate submission order and groups
in first-seen digest insertion order. -/
theorem buildDuplicatesReport_report_format (sizeGroups : List (Nat × List String))
    (ho : String → Except String String) (st : String → Except String Nat)
    (hdup : ∃ d, 2 ≤ ((hashPairs (candidatesOf sizeGroups) ho).filter
      (fun p => p.1 = d)).length) :
    (buildDuplicatesReport sizeGroups ho st).report =
      sepJoin "\n"
        (((dedupFirst ((hashPairs (candidatesOf sizeGroups) ho).map (fun p => p.1))).filter
            (fun d => 2 ≤ ((hashPairs (candidatesOf sizeGroups) ho).filter
              (fun p => p.1 = d)).length)).map
          (fun d =>
            "Hash: " ++ d ++ "\n" ++
              String.join
                (((hashPairs (candidatesOf sizeGroups) ho).filter (fun p => p.1 = d)).map
                  (fun p => "- " ++ p.2 ++ "\n")))) ++ "\n" := by
  have hrep : (buildDuplicatesReport sizeGroups ho st).report =
      String.join (((groupsSpec (hashPairs (candidatesOf sizeGroups) ho)).filter
        (fun g => 2 ≤ g.2.length)).map (fun g => formatBlock g.1 g.2 ++ "\n")) := by
    show (List.foldl (reportStep st) (⟨"", 0, 0, 0⟩ : ReportAcc)
      (groupByHash (mapWithConcurrencyRun (candidatesOf sizeGroups) (reportMapper ho)).1)).report = _
    rw [foldl_reportStep_eq, groupByHash_eq_groupsSpec]
    exact String.empty_append _
  have hne : ((dedupFirst ((hashPairs (candidatesOf sizeGroups) ho).map (fun p => p.1))).filter
      (fun d => 2 ≤ ((hashPairs (candidatesOf sizeGroups) ho).filter
        (fun p => p.1 = d)).length)) ≠ [] := by
    rcases hdup with ⟨d, hd⟩
    have hfilne : (hashPairs (candidatesOf sizeGroups) ho).filter (fun p => p.1 = d) ≠ [] := by
      intro hnil
      rw [hnil] at hd
      simp at hd
    rcases List.exists_mem_of_ne_nil _ hfilne with ⟨p, hp⟩
    have hpm := List.mem_filter.mp hp
    have hd1 : p.1 = d := by simpa using hpm.2
    have hkey : d ∈ dedupFirst ((hashPairs (candidatesOf sizeGroups) ho).map (fun p => p.1)) :=
      (mem_dedupFirst _ _).mpr (hd1 ▸ List.mem_map_of_mem _ hpm.1)
    have hmemf : d ∈ (dedupFirst ((hashPairs (candidatesOf sizeGroups) ho).map
        (fun p => p.1))).filter
        (fun d => 2 ≤ ((hashPairs (candidatesOf sizeGroups) ho).filter
          (fun p => p.1 = d)).length) :=
      List.mem_filter.mpr ⟨hkey, by simpa using hd⟩
    intro hnil
    rw [hnil] at hmemf
    exact List.not_mem_nil _ hmemf
  rw [hrep, mapFilter_groupsSpec]
  rw [show ((dedupFirst ((hashPairs (candidatesOf sizeGroups) ho).map (fun p => p.1))).filter
        (fun d => 2 ≤ ((hashPairs (candidatesOf sizeGroups) ho).filter
          (fun p => p.1 = d)).length)).map
      (fun d =>
        ("Hash: " ++ d ++ "\n" ++
          String.join (((hashPairs (candidatesOf sizeGroups) ho).filter
            (fun p => p.1 = d)).map (fun p => "- " ++ p.2 ++ "\n"))) ++ "\n") =
      (((dedupFirst ((hashPairs (candidatesOf sizeGroups) ho).map (fun p => p.1))).filter
        (fun d => 2 ≤ ((hashPairs (candidatesOf sizeGroups) ho).filter
          (fun p => p.1 = d)).length)).map
        (fun d =>
          "Hash: " ++ d ++ "\n" ++
            String.join (((hashPairs (candidatesOf sizeGroups) ho).filter
              (fun p => p.1 = d)).map (fun p => "- " ++ p.2 ++ "\n")))).map
      (fun b => b ++ "\n") from by
    rw [List.map_map]
    rfl]
  rw [join_map_newline _ (by simpa using hne)]

/-- The inputs of the C5 witness run: one bucket of two same-content files. -/
def gsW5 : List (Nat × List String) := [(7, ["/a.txt", "/b.txt"])]

def hoW5 : String → Except String String := fun _ => Except.ok "d1"

def stW5 : String → Except String Nat := fun _ => Except.ok 7

/-- Witness for C5 at a concrete run. -/
theorem buildDuplicatesReport_report_format_witness :
    (buildDuplicatesReport gsW5 hoW5 stW5).report =
      sepJoin "\n"
        (((dedupFirst ((hashPairs (candidatesOf gsW5) hoW5).map (fun p => p.1))).filter
            (fun d => 2 ≤ ((hashPairs (candidatesOf gsW5) hoW5).filter
              (fun p => p.1 = d)).length)).map
          (fun d =>
            "Hash: " ++ d ++ "\n" ++
              String.join
                (((hashPairs (candidatesOf gsW5) hoW5).filter (fun p => p.1 = d)).map
                  (fun p => "- " ++ p.2 ++ "\n")))) ++ "\n" :=
  buildDuplicatesReport_report_format gsW5 hoW5 stW5 ⟨"d1", by decide⟩

/-- C6 (amended): every duplicate group adds `stat(files[0]).size × (count − 1)`
to `stats.wastedBytes`; a failing stat is swallowed, the group contributes 0
and the report is not aborted — indeed the whole returned result is
identical to a run whose failing stats are replaced by successful size-0
stats, so the failure leaves no observable record. -/
theorem buildDuplicatesReport_wastedBytes (sizeGroups : List (Nat × List String))
    (ho : String → Except String String) (st : String → Except String Nat) :
    (buildDuplicatesReport sizeGroups ho st).stats.wastedBytes =
      (((groupByHash (mapWithConcurrencyRun (candidatesOf sizeGroups)
          (reportMapper ho)).1).filter
          (fun g => 2 ≤ g.2.length)).map (wastedOf st)).sum ∧
    buildDuplicatesReport sizeGroups ho st =
      buildDuplicatesReport sizeGroups ho
        (fun f =>
          match st f with
          | .error _ => Except.ok 0
          | .ok sz => Except.ok sz) := by
  have hstep : reportStep st = reportStep
      (fun f =>
        match st f with
        | .error _ => Except.ok 0
        | .ok sz => Except.ok sz) := by
    funext acc g
    unfold reportStep
    by_cases h2 : g.2.length < 2
    · rw [if_pos h2, if_pos h2]
    · rw [if_neg h2, if_neg h2]
      have hw : wastedOf st g = wastedOf
          (fun f =>
            match st f with
            | .error _ => Except.ok 0
            | .ok sz => Except.ok sz) g := by
        unfold wastedOf
        cases g.2 with
        | nil => rfl
        | cons f fs =>
          cases hst : st f with
          | ok sz => simp [hst]
          | error m => simp [hst]
      rw [hw]
  constructor
  · show (List.foldl (reportStep st) (⟨"", 0, 0, 0⟩ : ReportAcc)
      (groupByHash (mapWithConcurrencyRun (candidatesOf sizeGroups)
        (reportMapper ho)).1)).wastedBytes = _
    rw [foldl_reportStep_eq]
    exact Nat.zero_add _
  · simp only [buildDuplicatesReport]
    rw [hstep]

/-- The inputs of the C6 counterexample run: one duplicate group whose
representative member cannot be re-statted. -/
def gsC6 : List (Nat × List String) := [(3, ["/a.txt", "/b.txt"])]

def hoC6 : String → Except String String := fun _ => Except.ok "dd"

def stFailC6 : String → Except String Nat := fun _ => Except.error "EACCES: permission denied"

def stZeroC6 : String → Except String Nat := fun _ => Except.ok 0

/-- C6 counterexample: with the duplicate group's re-stat failing, the
returned result is exactly the result of a run in which the stat succeeds
with size 0 — errors empty, wastedBytes 0, the group still reported — and
the hashing path logs nothing: the stat failure is not observable, contrary
to the claim's "the failure condition is observable". -/
theorem wastedBytes_stat_failure_unobservable :
    buildDuplicatesReport gsC6 hoC6 stFailC6 = buildDuplicatesReport gsC6 hoC6 stZeroC6 ∧
    (buildDuplicatesReport gsC6 hoC6 stFailC6).errors = [] ∧
    (buildDuplicatesReport gsC6 hoC6 stFailC6).stats.wastedBytes = 0 ∧
    (buildDuplicatesReport gsC6 hoC6 stFailC6).stats.duplicateGroups = 1 ∧
    reportHashLog (candidatesOf gsC6) hoC6 = [] :=
  ⟨rfl, rfl, rfl, rfl, rfl⟩

end Dupfind
